import Mathlib

/-!
Verification development for the SentinAL synthetic fraud-graph generator
and its topology query layer.

The Lean definitions below are a shallow embedding of the Python sources:

* `src/python/data_gen_enhanced.py` — `EnhancedFinancialGraphGenerator`
  (user-feature generation, the four fraud-pattern injectors, normal
  traffic generation), built on top of `networkx.DiGraph`.
* `src/python/agent_explainer.py` — `GraphQueryTool`
  (`get_k_hop_subgraph`, `_find_cycles_involving_node`).

Modelling conventions:

* `networkx.DiGraph` is embedded as an association structure: `adj` maps a
  node to its out-adjacency, in node/edge insertion order.  A `DiGraph`
  stores at most ONE edge per ordered pair: `add_edge` on an existing pair
  updates the attribute mapping in place (this is exactly the networkx
  `DiGraph.add_edge` behaviour, and it is load-bearing for the multi-edge
  claim).  Node attributes live in the `nattr` association list.
* Python `set` objects (`fraud_users`, BFS visited/frontier sets) are
  embedded as `Finset Nat`.
* Randomness (`random.sample`, `random.choice`, `random.uniform`,
  `np.random.*`) is embedded as explicit oracle parameters; theorems
  constrain an oracle's output exactly as the corresponding library call
  guarantees (for example `random.sample(pool, n)` returns `n` distinct
  elements of `pool`).
* Monetary amounts are embedded as `ℚ`.  Python's `round(x, 2)` is
  embedded as `round2` (scale by 100, round half to even, divide by 100).
  The Python code computes amounts in binary floating point; at decimal
  ties (such as 857.375) the float value can fall below the exact rational
  value, so theorems never assert the exact rounded value at a tie.
* `datetime.now()` is an explicit `now : ℤ` parameter (seconds);
  `timedelta(hours = h)` is `3600 * h`, `timedelta(minutes = m)` is
  `60 * m`, `timedelta(seconds = s)` is `s`.
-/

attribute [local semireducible] Rat.mul Rat.inv Rat.add Rat.sub

/-- Attributes stored on one transaction edge
(`data_gen_enhanced.py`, keyword arguments of every `add_edge` call). -/
structure EdgeAttrs where
  amount : ℚ
  timestamp : ℤ
  transaction_type : String
  is_fraud_edge : Nat
  pattern : String
  deriving Repr, DecidableEq

/-- Attributes stored on one account node
(`data_gen_enhanced.py`, `generate_user_features`). -/
structure NodeAttrs where
  account_age_days : Nat
  risk_score_initial : ℚ
  is_fraud : Nat
  fraud_pattern : Option String
  deriving Repr, DecidableEq

/-- Association-list lookup by key (first entry wins, as in a Python dict
with unique keys). -/
def alookup {β : Type} (k : Nat) : List (Nat × β) → Option β
  | [] => none
  | p :: rest => if p.1 = k then some p.2 else alookup k rest

/-- Insert-or-update for an insertion-ordered association list: an existing
key keeps its position and gets the new value, a new key is appended.
This is how a Python dict assignment `d[k] = v` behaves. -/
def aupsert {β : Type} (k : Nat) (v : β) (l : List (Nat × β)) : List (Nat × β) :=
  if (l.map Prod.fst).contains k then
    l.map (fun p => if p.1 = k then (k, v) else p)
  else l ++ [(k, v)]

/-- The attribute change performed when an injector marks an account:
`is_fraud = 1` plus the pattern name. -/
def markAttrs (pat : String) (a : NodeAttrs) : NodeAttrs :=
  { a with is_fraud := 1, fraud_pattern := some pat }

/-- Shallow embedding of `networkx.DiGraph` as used by the repository:
`adj` is the successor structure (node insertion order, then edge
insertion order), `nattr` the node attribute dictionary. -/
structure DiGraph where
  adj : List (Nat × List (Nat × EdgeAttrs))
  nattr : List (Nat × NodeAttrs)
  deriving Repr, DecidableEq

namespace DiGraph

/-- The empty graph (`nx.DiGraph()`). -/
def empty : DiGraph := ⟨[], []⟩

/-- Node list in insertion order (iteration order of `G.nodes`). -/
def nodes (g : DiGraph) : List Nat := g.adj.map Prod.fst

/-- Ensure a node key exists in the adjacency structure (networkx creates
missing endpoints with an empty adjacency on `add_edge`). -/
def ensureNode (g : DiGraph) (u : Nat) : DiGraph :=
  if (g.nodes).contains u then g else { g with adj := g.adj ++ [(u, [])] }

/-- Embedding of `G.add_node(u, **attrs)`: creates the node or updates its
attributes. -/
def add_node (g : DiGraph) (u : Nat) (a : NodeAttrs) : DiGraph :=
  { (g.ensureNode u) with nattr := aupsert u a g.nattr }

/-- Embedding of `G.add_edge(u, v, **attrs)` on a `networkx.DiGraph`:
missing endpoints are created, and the single edge slot for the ordered
pair `(u, v)` is created or OVERWRITTEN (a `DiGraph` is not a multigraph). -/
def add_edge (g : DiGraph) (u v : Nat) (a : EdgeAttrs) : DiGraph :=
  let g1 := (g.ensureNode u).ensureNode v
  { g1 with adj := g1.adj.map (fun p => if p.1 = u then (u, aupsert v a p.2) else p) }

/-- Out-adjacency of a node, in edge insertion order. -/
def adjOf (g : DiGraph) (u : Nat) : List (Nat × EdgeAttrs) :=
  (alookup u g.adj).getD []

/-- Embedding of `G.successors(u)`. -/
def successors (g : DiGraph) (u : Nat) : List Nat :=
  (g.adjOf u).map Prod.fst

/-- Embedding of `G.predecessors(u)`: the nodes with an edge into `u`. -/
def predecessors (g : DiGraph) (u : Nat) : List Nat :=
  (g.adj.filter (fun p => p.2.any (fun q => q.1 == u))).map Prod.fst

/-- Attribute lookup `G.nodes[u]`. -/
def getNode (g : DiGraph) (u : Nat) : Option NodeAttrs :=
  alookup u g.nattr

/-- Attribute lookup `G.edges[u, v]` (`none` when the edge is absent). -/
def getEdge (g : DiGraph) (u v : Nat) : Option EdgeAttrs :=
  alookup v (g.adjOf u)

/-- Edge iteration `G.edges(data=True)`: nodes in insertion order, each
followed by its out-edges in insertion order. -/
def edges (g : DiGraph) : List (Nat × Nat × EdgeAttrs) :=
  g.adj.flatMap (fun p => p.2.map (fun q => (p.1, q.1, q.2)))

/-- The ordered pairs (source, destination) of all edges. -/
def edgePairs (g : DiGraph) : List (Nat × Nat) :=
  g.edges.map (fun e => (e.1, e.2.1))

/-- Embedding of `G.subgraph(S)`: the induced subgraph on the node set `S`,
keeping the iteration order of the original graph. -/
def subgraph (g : DiGraph) (S : Finset Nat) : DiGraph :=
  { adj := (g.adj.filter (fun p => p.1 ∈ S)).map
      (fun p => (p.1, p.2.filter (fun q => q.1 ∈ S))),
    nattr := g.nattr.filter (fun p => p.1 ∈ S) }

/-- Embedding of the node-marking statements
`G.nodes[u]['is_fraud'] = 1; G.nodes[u]['fraud_pattern'] = pat`. -/
def markFraud (g : DiGraph) (u : Nat) (pat : String) : DiGraph :=
  { g with nattr := g.nattr.map (fun p =>
      if p.1 = u then (u, markAttrs pat p.2) else p) }

end DiGraph

/-- Model of Python's `round(x, 2)`: scale by 100, round half to even,
scale back.  (The Python code applies this to binary floats; at an exact
decimal tie the float argument may already sit strictly below the tie, so
theorems only use `round2` away from ties, or through error bounds.) -/
def round2 (x : ℚ) : ℚ :=
  let n : ℤ := ⌊x * 100⌋
  let r : ℚ := x * 100 - n
  (((if r < 1/2 then n else if 1/2 < r then n + 1 else if n % 2 = 0 then n else n + 1) : ℤ) : ℚ) / 100

/-- State of an `EnhancedFinancialGraphGenerator`
(`data_gen_enhanced.py`, `__init__`): the user count, the networkx graph
and the `fraud_users` set. -/
structure GenState where
  num_users : Nat
  graph : DiGraph
  fraud_users : Finset Nat
  deriving DecidableEq

/-- Embedding of `EnhancedFinancialGraphGenerator(num_users)`. -/
def initGenerator (num_users : Nat) : GenState :=
  { num_users := num_users, graph := DiGraph.empty, fraud_users := ∅ }

/-- The `transaction_types` list of the generator. -/
def transaction_types : List String := ["payment", "transfer", "withdrawal"]

/-- The list `[u for u in range(num_users) if u not in fraud_users]`
computed at the top of every injector. -/
def availableUsers (s : GenState) : List Nat :=
  (List.range s.num_users).filter (fun u => u ∉ s.fraud_users)

/-- Embedding of `generate_user_features`: adds nodes `0 .. num_users - 1`
in order.  `random.randint(30, 1825)` and `np.random.beta(2, 5)` are the
oracles `age` and `risk`. -/
def generate_user_features (s : GenState) (age : Nat → Nat) (risk : Nat → ℚ) : GenState :=
  { s with graph := (List.range s.num_users).foldl (fun g u =>
      g.add_node u { account_age_days := age u, risk_score_initial := risk u,
                     is_fraud := 0, fraud_pattern := none }) s.graph }

/-- The `i`-th ring transaction of `inject_cyclic_ring` over the sampled
member list: source `sample[i]`, destination `sample[(i+1) % n]`, amount
`round(1000 * 0.95 ** i, 2)`, timestamp offset `i` hours, type transfer. -/
def ringEdge (sample : List Nat) (now : ℤ) (i : Nat) : Nat × Nat × EdgeAttrs :=
  (sample.getD i 0, sample.getD ((i + 1) % sample.length) 0,
    { amount := round2 (1000 * (19/20 : ℚ) ^ i),
      timestamp := now + 3600 * (i : ℤ),
      transaction_type := "transfer",
      is_fraud_edge := 1,
      pattern := "cyclic_ring" })

/-- The full list of ring transactions created by one call. -/
def ringEdges (sample : List Nat) (now : ℤ) : List (Nat × Nat × EdgeAttrs) :=
  (List.range sample.length).map (ringEdge sample now)

/-- Embedding of `inject_cyclic_ring(ring_size)`.  The oracle `sample` is
the result of `random.sample(available_users, ring_size)`.  When the pool
is too small the function prints a warning and returns the empty list with
the state untouched (the spec's `InsufficientPool` outcome); otherwise it
marks every sampled member, adds each member to `fraud_users`, creates the
ring transactions and returns the sampled members. -/
def inject_cyclic_ring (s : GenState) (ring_size : Nat) (sample : List Nat)
    (now : ℤ) : GenState × List Nat :=
  if (availableUsers s).length < ring_size then (s, [])
  else
    let g1 := sample.foldl (fun g u => g.markFraud u "cyclic_ring") s.graph
    let g2 := (ringEdges sample now).foldl (fun g e => g.add_edge e.1 e.2.1 e.2.2) g1
    ({ s with graph := g2, fraud_users := s.fraud_users ∪ sample.toFinset }, sample)

/-- The `add_edge` keyword arguments of the `i`-th fan-out transaction:
equal split `5000 / num_targets`, offset `5 * i` minutes, type transfer.
`ti` is the (index, target) pair from `enumerate(targets)`. -/
def fanoutEdgeAttr (num_targets : Nat) (now : ℤ) (ti : Nat × Nat) : EdgeAttrs :=
  { amount := round2 ((5000 : ℚ) / num_targets),
    timestamp := now + 60 * (5 * (ti.1 : ℤ)),
    transaction_type := "transfer", is_fraud_edge := 1, pattern := "fanout" }

/-- The `add_edge` keyword arguments of the `i`-th rapid-fire transaction:
rounded uniform amount, 3 seconds apart, type payment.  `ti` pairs the
index with the (target, raw amount) oracle draw. -/
def rapidfireEdgeAttr (now : ℤ) (ti : Nat × (Nat × ℚ)) : EdgeAttrs :=
  { amount := round2 ti.2.2, timestamp := now + 3 * (ti.1 : ℤ),
    transaction_type := "payment", is_fraud_edge := 1, pattern := "rapidfire" }

/-- The `add_edge` keyword arguments of the `i`-th gather transaction. -/
def scatterInEdgeAttr (now : ℤ) (ti : Nat × (Nat × ℚ)) : EdgeAttrs :=
  { amount := round2 ti.2.2, timestamp := now + 3600 * (ti.1 : ℤ),
    transaction_type := "transfer", is_fraud_edge := 1, pattern := "scatter_gather_in" }

/-- The `add_edge` keyword arguments of the `i`-th scatter transaction,
whose hour offset continues after the `num_sources` gather hours. -/
def scatterOutEdgeAttr (num_sources : Nat) (now : ℤ) (ti : Nat × (Nat × ℚ)) : EdgeAttrs :=
  { amount := round2 ti.2.2,
    timestamp := now + 3600 * ((num_sources : ℤ) + (ti.1 : ℤ)),
    transaction_type := "transfer", is_fraud_edge := 1, pattern := "scatter_gather_out" }

/-- Embedding of `inject_fanout_pattern(source_user, num_targets)`.
`srcChoice` is the oracle for `random.choice(available_users)` (used only
when `source_user is None`); `targets` is the oracle for
`random.sample(..., num_targets)` (drawn from `available_users` with the
chosen source removed when `source_user is None`, and from the full
`available_users` when the caller supplies the source).  Only the source
is marked fraudulent; each target receives `5000 / num_targets`, offset
`5 * i` minutes. -/
def inject_fanout_pattern (s : GenState) (source_user : Option Nat) (num_targets : Nat)
    (srcChoice : Nat) (targets : List Nat) (now : ℤ) : GenState × List Nat :=
  if (availableUsers s).length < num_targets + 1 then (s, [])
  else
    let src := source_user.getD srcChoice
    let g1 := (s.graph.markFraud src "fanout_source")
    let g2 := targets.enum.foldl (fun g ti =>
      g.add_edge src ti.2 (fanoutEdgeAttr num_targets now ti)) g1
    ({ s with graph := g2, fraud_users := insert src s.fraud_users }, src :: targets)

/-- Embedding of `inject_rapidfire_pattern(user_id, num_transactions)`.
`userChoice` is the oracle for `random.choice(available_users)` (used only
when `user_id is None`); `txs` carries, per transaction, the oracle target
(`random.choice` over all users other than the chosen one) and the oracle
raw amount (`random.uniform(50, 200)`).  Timestamps are 3 seconds apart. -/
def inject_rapidfire_pattern (s : GenState) (user_id : Option Nat) (num_transactions : Nat)
    (userChoice : Nat) (txs : List (Nat × ℚ)) (now : ℤ) : GenState × List Nat :=
  if (availableUsers s).length < 2 then (s, [])
  else
    let user := user_id.getD userChoice
    let g1 := s.graph.markFraud user "rapidfire"
    let g2 := txs.enum.foldl (fun g ti =>
      g.add_edge user ti.2.1 (rapidfireEdgeAttr now ti)) g1
    ({ s with graph := g2, fraud_users := insert user s.fraud_users }, [user])

/-- Embedding of `inject_scatter_gather_pattern(hub_user, num_sources,
num_targets)`.  `hubChoice` is the oracle for `random.choice`; `sources`
and `targets` carry the sampled accounts with their oracle raw amounts
(`random.uniform(800, 1200)` and `random.uniform(900, 1100)`).  Only the
hub is marked fraudulent.  Gather edges are offset `i` hours, scatter
edges `num_sources + i` hours. -/
def inject_scatter_gather_pattern (s : GenState) (hub_user : Option Nat)
    (num_sources num_targets : Nat) (hubChoice : Nat)
    (sources targets : List (Nat × ℚ)) (now : ℤ) : GenState × List Nat :=
  if (availableUsers s).length < num_sources + num_targets + 1 then (s, [])
  else
    let hub := hub_user.getD hubChoice
    let g1 := s.graph.markFraud hub "scatter_gather_hub"
    let g2 := sources.enum.foldl (fun g ti =>
      g.add_edge ti.2.1 hub (scatterInEdgeAttr now ti)) g1
    let g3 := targets.enum.foldl (fun g ti =>
      g.add_edge hub ti.2.1 (scatterOutEdgeAttr num_sources now ti)) g2
    ({ s with graph := g3, fraud_users := insert hub s.fraud_users },
      sources.map (fun p => p.1) ++ hub :: targets.map (fun p => p.1))

/-- One planned normal transaction: the oracle source and destination
(`random.randint(0, num_users - 1)` each), the raw log-normal amount
sample, the oracle hour offset (`random.randint(0, 720)`) and the oracle
transaction type (`random.choice(transaction_types)`). -/
structure NormalTx where
  src : Nat
  dst : Nat
  rawAmount : ℚ
  hourOffset : Nat
  ty : String
  deriving DecidableEq

/-- The `add_edge` keyword arguments of one normal transaction: rounded
log-normal amount clamped to `[10, 5000]`, uniform hour offset, oracle
type, not a fraud edge. -/
def normalEdgeAttr (now : ℤ) (t : NormalTx) : EdgeAttrs :=
  { amount := max 10 (min (round2 t.rawAmount) 5000),
    timestamp := now + 3600 * (t.hourOffset : ℤ),
    transaction_type := t.ty, is_fraud_edge := 0, pattern := "normal" }

/-- Embedding of `generate_normal_transactions`: a self-loop draw is
skipped; otherwise the rounded amount is clamped to `[10, 5000]` and the
edge is added with `is_fraud_edge = 0`, pattern `normal`. -/
def generate_normal_transactions (s : GenState) (txs : List NormalTx) (now : ℤ) : GenState :=
  { s with graph := txs.foldl (fun g t =>
      if t.src = t.dst then g
      else g.add_edge t.src t.dst (normalEdgeAttr now t)) s.graph }

/-- One injector call of a generation run, carrying its oracle draws.
Constructors mirror the public methods of
`EnhancedFinancialGraphGenerator`. -/
inductive Inj where
  | ring (ring_size : Nat) (sample : List Nat) (now : ℤ)
  | fanout (source_user : Option Nat) (num_targets : Nat) (srcChoice : Nat)
      (targets : List Nat) (now : ℤ)
  | rapidfire (user_id : Option Nat) (num_transactions : Nat) (userChoice : Nat)
      (txs : List (Nat × ℚ)) (now : ℤ)
  | scatter (hub_user : Option Nat) (num_sources num_targets : Nat) (hubChoice : Nat)
      (sources targets : List (Nat × ℚ)) (now : ℤ)
  | normal (txs : List NormalTx) (now : ℤ)
  deriving DecidableEq

/-- The generator state after one injector call. -/
def stepState (s : GenState) : Inj → GenState
  | .ring n sample now => (inject_cyclic_ring s n sample now).1
  | .fanout su nt sc targets now => (inject_fanout_pattern s su nt sc targets now).1
  | .rapidfire uid ntx uc txs now => (inject_rapidfire_pattern s uid ntx uc txs now).1
  | .scatter hu ns nt hc sources targets now =>
      (inject_scatter_gather_pattern s hu ns nt hc sources targets now).1
  | .normal txs now => generate_normal_transactions s txs now

/-- The set of accounts MARKED FRAUDULENT by one injector call (empty when
the call aborts on an insufficient pool): the ring marks every sampled
member, fan-out only the source, rapid-fire only the user, scatter-gather
only the hub, normal traffic nobody. -/
def stepMarked (s : GenState) : Inj → List Nat
  | .ring n sample _ => if (availableUsers s).length < n then [] else sample
  | .fanout su nt sc _ _ =>
      if (availableUsers s).length < nt + 1 then [] else [su.getD sc]
  | .rapidfire uid _ uc _ _ =>
      if (availableUsers s).length < 2 then [] else [uid.getD uc]
  | .scatter hu ns nt hc _ _ _ =>
      if (availableUsers s).length < ns + nt + 1 then [] else [hu.getD hc]
  | .normal _ _ => []

/-- The generator state after a whole run of injector calls. -/
def runState (s : GenState) : List Inj → GenState
  | [] => s
  | i :: rest => runState (stepState s i) rest

/-- The per-call marked-fraudulent sets of a run, in call order. -/
def runMarked (s : GenState) : List Inj → List (List Nat)
  | [] => []
  | i :: rest => stepMarked s i :: runMarked (stepState s i) rest

/-- Contracts the random oracles of one call satisfy, exactly as the
Python library calls guarantee them: `random.sample(pool, n)` yields `n`
distinct members of `pool`, `random.choice(pool)` a member of `pool`,
`random.uniform(a, b)` a value in `[a, b]`, and a caller-supplied focal
account must be an existing node (the injector immediately assigns to
`graph.nodes[id]`).  The constraints apply on the success path; a call
that aborts on its pool guard drew nothing. -/
def ValidInj (s : GenState) : Inj → Prop
  | .ring n sample _ =>
      if (availableUsers s).length < n then True
      else sample.Nodup ∧ sample.length = n ∧ ∀ u ∈ sample, u ∈ availableUsers s
  | .fanout su nt sc targets _ =>
      if (availableUsers s).length < nt + 1 then True
      else
        (match su with
          | none => sc ∈ availableUsers s ∧ targets.Nodup ∧ targets.length = nt ∧
              ∀ t ∈ targets, t ∈ (availableUsers s).erase sc
          | some u => u < s.num_users ∧ targets.Nodup ∧ targets.length = nt ∧
              ∀ t ∈ targets, t ∈ availableUsers s)
  | .rapidfire uid _ uc txs _ =>
      if (availableUsers s).length < 2 then True
      else
        (match uid with
          | none => uc ∈ availableUsers s ∧
              ∀ p ∈ txs, p.1 < s.num_users ∧ p.1 ≠ uc ∧ 50 ≤ p.2 ∧ p.2 ≤ 200
          | some u => u < s.num_users ∧
              ∀ p ∈ txs, p.1 < s.num_users ∧ p.1 ≠ u ∧ 50 ≤ p.2 ∧ p.2 ≤ 200)
  | .scatter hu ns nt hc sources targets _ =>
      if (availableUsers s).length < ns + nt + 1 then True
      else
        (match hu with
          | none => hc ∈ availableUsers s ∧
              (sources.map Prod.fst).Nodup ∧ sources.length = ns ∧
              (∀ p ∈ sources, p.1 ∈ (availableUsers s).erase hc ∧ 800 ≤ p.2 ∧ p.2 ≤ 1200) ∧
              (targets.map Prod.fst).Nodup ∧ targets.length = nt ∧
              ∀ p ∈ targets, p.1 ∈ (availableUsers s).erase hc ∧
                p.1 ∉ sources.map Prod.fst ∧ 900 ≤ p.2 ∧ p.2 ≤ 1100
          | some u => u < s.num_users ∧
              (sources.map Prod.fst).Nodup ∧ sources.length = ns ∧
              (∀ p ∈ sources, p.1 ∈ availableUsers s ∧ 800 ≤ p.2 ∧ p.2 ≤ 1200) ∧
              (targets.map Prod.fst).Nodup ∧ targets.length = nt ∧
              ∀ p ∈ targets, p.1 ∈ availableUsers s ∧
                p.1 ∉ sources.map Prod.fst ∧ 900 ≤ p.2 ∧ p.2 ≤ 1100)
  | .normal txs _ =>
      ∀ t ∈ txs, t.src < s.num_users ∧ t.dst < s.num_users ∧
        t.hourOffset ≤ 720 ∧ t.ty ∈ transaction_types

instance (s : GenState) (i : Inj) : Decidable (ValidInj s i) := by
  cases i with
  | ring n sample now => simp only [ValidInj]; infer_instance
  | fanout su nt sc targets now => cases su <;> simp only [ValidInj] <;> infer_instance
  | rapidfire uid ntx uc txs now => cases uid <;> simp only [ValidInj] <;> infer_instance
  | scatter hu ns nt hc sources targets now =>
      cases hu <;> simp only [ValidInj] <;> infer_instance
  | normal txs now => simp only [ValidInj]; infer_instance

/-- A call whose focal account is chosen by the injector itself rather
than supplied by the caller (`source_user` / `user_id` / `hub_user` left
as `None`). -/
def SelfChosen : Inj → Prop
  | .ring _ _ _ => True
  | .fanout su _ _ _ _ => su = none
  | .rapidfire uid _ _ _ _ => uid = none
  | .scatter hu _ _ _ _ _ _ => hu = none
  | .normal _ _ => True

instance (i : Inj) : Decidable (SelfChosen i) := by
  cases i <;> simp only [SelfChosen] <;> infer_instance

/-- Every call of the run satisfies its oracle contracts, evaluated
against the state the call actually sees. -/
def ValidRun (s : GenState) : List Inj → Prop
  | [] => True
  | i :: rest => ValidInj s i ∧ ValidRun (stepState s i) rest

def ValidRun.dec (s : GenState) : (l : List Inj) → Decidable (ValidRun s l)
  | [] => isTrue trivial
  | i :: rest =>
      @instDecidableAnd _ _ inferInstance (ValidRun.dec (stepState s i) rest)

instance (s : GenState) (l : List Inj) : Decidable (ValidRun s l) := ValidRun.dec s l

/-- One round of the bidirectional BFS of `get_k_hop_subgraph`: the union
of successors and predecessors of every node in the current layer. -/
def nbrOnce (g : DiGraph) (layer : Finset Nat) : Finset Nat :=
  layer.biUnion (fun u => (g.successors u).toFinset ∪ (g.predecessors u).toFinset)

/-- The loop `for _ in range(k)` of `get_k_hop_subgraph`, threading the
pair (visited set `neighbors`, frontier `current_layer`). -/
def kHopLoop (g : DiGraph) : Nat → Finset Nat × Finset Nat → Finset Nat × Finset Nat
  | 0, st => st
  | k + 1, st => kHopLoop g k (st.1 ∪ nbrOnce g st.2, nbrOnce g st.2)

/-- The visited set `neighbors` after the `k` BFS rounds, starting from
the singleton seed. -/
def kHopVisited (g : DiGraph) (seed : Nat) (k : Nat) : Finset Nat :=
  (kHopLoop g k ({seed}, {seed})).1

/-- A list of nodes is a simple directed cycle over the edge-pair list
`E`: nonempty, no repeated node, and every consecutive pair (including the
closing pair) is an edge.  This is the cycle format of
`networkx.simple_cycles`. -/
def isSimpleCycleOf (E : List (Nat × Nat)) (c : List Nat) : Prop :=
  c ≠ [] ∧ c.Nodup ∧ ∀ j < c.length, (c.getD j 0, c.getD ((j + 1) % c.length) 0) ∈ E

instance (E : List (Nat × Nat)) (c : List Nat) : Decidable (isSimpleCycleOf E c) := by
  simp only [isSimpleCycleOf]; infer_instance

/-- All ways of inserting an element into a list (helper for the
permutation enumeration below). -/
def insertsD (a : Nat) : List Nat → List (List Nat)
  | [] => [[a]]
  | b :: l => (a :: b :: l) :: (insertsD a l).map (fun x => b :: x)

/-- All permutations of a list, by structural recursion. -/
def permsD : List Nat → List (List Nat)
  | [] => [[]]
  | a :: l => (permsD l).flatMap (insertsD a)

/-- Model of `networkx.simple_cycles(G)`: the list of all simple directed
cycles of the graph, obtained by filtering every ordering of every subset
of the node list through the cycle predicate.  (The library yields one
representative per cyclic rotation class; this model lists every
rotation, which the verified properties are invariant under.) -/
def simple_cycles (g : DiGraph) : List (List Nat) :=
  (g.nodes.sublists.flatMap permsD).filter
    (fun c => decide (isSimpleCycleOf g.edgePairs c))

/-- Embedding of `GraphQueryTool._find_cycles_involving_node`: all simple
cycles of the subgraph, filtered to those containing `node_id`.  (The
`try/except` around the library call only fires on library failure, which
the total model has no counterpart of.) -/
def find_cycles_involving_node (g : DiGraph) (node_id : Nat) : List (List Nat) :=
  (simple_cycles g).filter (fun c => decide (node_id ∈ c))

/-- Embedding of `GraphQueryTool.get_k_hop_subgraph` up to text
formatting: `none` models the "User not found" early return; otherwise
the visited node set, the edge list of the induced subgraph in its
iteration order (the order the report renders), and the detected cycles. -/
def get_k_hop_subgraph (g : DiGraph) (user_id : Nat) (k : Nat) :
    Option (Finset Nat × List (Nat × Nat × EdgeAttrs) × List (List Nat)) :=
  if user_id ∈ g.nodes then
    let neighbors := kHopVisited g user_id k
    let sub := g.subgraph neighbors
    some (neighbors, sub.edges, find_cycles_involving_node sub user_id)
  else none

/-! Concrete fixtures shared by several theorems below. -/

/-- A six-account generator after `generate_user_features` (constant
oracles for account age and initial risk). -/
def demoState6 : GenState :=
  generate_user_features (initGenerator 6) (fun _ => 100) (fun _ => 0)

/-- The fixture after injecting a cyclic ring over accounts 0 and 1. -/
def demoRing : GenState × List Nat := inject_cyclic_ring demoState6 2 [0, 1] 0

/-- A normal-traffic draw between accounts 0 and 1 (the same ordered pair
as the first ring transaction). -/
def demoNormalTx : NormalTx :=
  { src := 0, dst := 1, rawAmount := 100, hourOffset := 0, ty := "payment" }

/-- C3: a cyclic-ring request the unused pool cannot satisfy aborts with
the `InsufficientPool` outcome (the injector's early return with the empty
member list) and performs no mutation at all: the generator state — graph,
transactions, fraud marks — is returned exactly as it was. -/
theorem inject_cyclic_ring_insufficient_pool_unchanged (s : GenState)
    (ring_size : Nat) (sample : List Nat) (now : ℤ)
    (h : (availableUsers s).length < ring_size) :
    inject_cyclic_ring s ring_size sample now = (s, []) := by
  simp [inject_cyclic_ring, h]

/-- Witness for C3, the spec's Scenario C: after a ring of size 3 on six
accounts only 3 unused accounts remain, and requesting `CyclicRing(5)`
leaves the state unchanged. -/
theorem inject_cyclic_ring_insufficient_pool_unchanged_witness :
    (availableUsers (inject_cyclic_ring demoState6 3 [0, 1, 2] 0).1).length < 5 ∧
    inject_cyclic_ring (inject_cyclic_ring demoState6 3 [0, 1, 2] 0).1 5 [] 0 =
      ((inject_cyclic_ring demoState6 3 [0, 1, 2] 0).1, []) :=
  ⟨by decide,
    inject_cyclic_ring_insufficient_pool_unchanged
      (inject_cyclic_ring demoState6 3 [0, 1, 2] 0).1 5 [] 0 (by decide)⟩

/-- C2 (code bug): the transaction store is a `networkx.DiGraph`, not a
multigraph.  Evaluated at the failing input — a ring over accounts 0, 1
followed by one normal transaction from 0 to 1 — the earlier fraud
transaction 0→1 (amount 1000, `is_fraud_edge = 1`, pattern cyclic_ring)
is overwritten: afterwards the ordered pair 0→1 holds exactly one
transaction and it carries the normal-traffic attributes. -/
theorem normal_add_edge_overwrites_fraud_edge :
    demoRing.1.graph.getEdge 0 1 =
      some { amount := 1000, timestamp := 0, transaction_type := "transfer",
             is_fraud_edge := 1, pattern := "cyclic_ring" } ∧
    (generate_normal_transactions demoRing.1 [demoNormalTx] 0).graph.getEdge 0 1 =
      some { amount := 100, timestamp := 0, transaction_type := "payment",
             is_fraud_edge := 0, pattern := "normal" } ∧
    ((generate_normal_transactions demoRing.1 [demoNormalTx] 0).graph.edges.filter
      (fun e => decide (e.1 = 0 ∧ e.2.1 = 1))).length = 1 := by
  decide

/-- C10: when the focal account is supplied by the caller, the fan-out,
rapid-fire and scatter-gather injectors only check pool size, never that
the supplied account is unused.  With accounts 0 and 1 already claimed by
a cyclic ring, each of the three injectors called with focal account 0
proceeds and overwrites account 0's fraud_pattern; the run consisting of
the ring followed by the explicit-focal rapid-fire call satisfies every
oracle contract yet its marked-fraudulent sets are not pairwise disjoint. -/
theorem explicit_focal_bypasses_unused_check :
    ((inject_rapidfire_pattern demoRing.1 (some 0) 1 0 [(2, 100)] 0).2 = [0] ∧
      ((inject_rapidfire_pattern demoRing.1 (some 0) 1 0 [(2, 100)] 0).1.graph.getNode 0).map
        NodeAttrs.fraud_pattern = some (some "rapidfire")) ∧
    ((inject_fanout_pattern demoRing.1 (some 0) 3 0 [2, 3, 4] 0).2 = [0, 2, 3, 4] ∧
      ((inject_fanout_pattern demoRing.1 (some 0) 3 0 [2, 3, 4] 0).1.graph.getNode 0).map
        NodeAttrs.fraud_pattern = some (some "fanout_source")) ∧
    ((inject_scatter_gather_pattern demoRing.1 (some 0) 1 1 0 [(2, 1000)] [(3, 1000)] 0).2 =
        [2, 0, 3] ∧
      ((inject_scatter_gather_pattern demoRing.1 (some 0) 1 1 0 [(2, 1000)] [(3, 1000)] 0).1.graph.getNode 0).map
        NodeAttrs.fraud_pattern = some (some "scatter_gather_hub")) ∧
    (ValidRun demoState6 [Inj.ring 2 [0, 1] 0, Inj.rapidfire (some 0) 1 0 [(2, 100)] 0] ∧
      ¬ List.Pairwise (fun A B => ∀ u ∈ A, u ∉ B)
        (runMarked demoState6 [Inj.ring 2 [0, 1] 0, Inj.rapidfire (some 0) 1 0 [(2, 100)] 0])) := by
  decide

/-- A three-account generator state in which a fan-out injection with a
caller-supplied source drew the source itself as its single target
(`random.sample` over `available_users`, which still contains the source),
creating a self-loop transaction 0→0. -/
def selfLoopState : GenState :=
  (inject_fanout_pattern
    (generate_user_features (initGenerator 3) (fun _ => 100) (fun _ => 0))
    (some 0) 1 0 [0] 0).1

/-- The self-loop transaction created in `selfLoopState`
(amount `5000 / 1`, offset 0 minutes). -/
def selfLoopEdge : EdgeAttrs :=
  { amount := 5000, timestamp := 0, transaction_type := "transfer",
    is_fraud_edge := 1, pattern := "fanout" }

/-- C7 counterexample: the fan-out draw producing `selfLoopState` respects
every oracle contract, yet `get_k_hop_subgraph(0, 0)` on the resulting
graph returns the self-loop transaction 0→0 in its edge list (and reports
the one-node cycle), contradicting the claim that the hop-0 subgraph
never contains any transaction. -/
theorem get_k_hop_zero_counterexample :
    ValidInj (generate_user_features (initGenerator 3) (fun _ => 100) (fun _ => 0))
      (Inj.fanout (some 0) 1 0 [0] 0) ∧
    get_k_hop_subgraph selfLoopState.graph 0 0 =
      some ({0}, [(0, 0, selfLoopEdge)], [[0]]) ∧
    [(0, 0, selfLoopEdge)] ≠ ([] : List (Nat × Nat × EdgeAttrs)) :=
  ⟨by decide, by decide, by decide⟩

/-! Association-list and graph-operation lemmas. -/

theorem alookup_isSome_of_mem {β : Type} {l : List (Nat × β)} {k : Nat}
    (h : k ∈ l.map Prod.fst) : ∃ v, alookup k l = some v := by
  induction l with
  | nil => simp at h
  | cons p rest ih =>
      by_cases hp : p.1 = k
      · exact ⟨p.2, by simp [alookup, hp]⟩
      · simp only [List.map_cons, List.mem_cons] at h
        rcases h with h | h
        · exact absurd h.symm hp
        · obtain ⟨v, hv⟩ := ih h
          exact ⟨v, by simp [alookup, hp, hv]⟩

theorem mem_of_alookup_isSome {β : Type} {l : List (Nat × β)} {k : Nat} {v : β}
    (h : alookup k l = some v) : k ∈ l.map Prod.fst := by
  induction l with
  | nil => simp [alookup] at h
  | cons p rest ih =>
      by_cases hp : p.1 = k
      · simp [hp]
      · simp only [alookup, hp, if_false] at h
        simp [ih h]

theorem alookup_map_update {β : Type} (l : List (Nat × β)) (u x : Nat) (f : β → β) :
    alookup x (l.map (fun p => if p.1 = u then (u, f p.2) else p)) =
      if x = u then (alookup u l).map f else alookup x l := by
  induction l with
  | nil => by_cases hx : x = u <;> simp [alookup, hx]
  | cons p rest ih =>
      by_cases hp : p.1 = u
      · by_cases hx : x = u
        · simp [alookup, hp, hx]
        · simp [alookup, hp, hx, ih, Ne.symm hx]
      · by_cases hpx : p.1 = x
        · have hx : ¬ x = u := by rw [← hpx]; exact hp
          simp [alookup, hp, hpx, hx]
        · simp [alookup, hp, hpx, ih]

theorem alookup_append {β : Type} (l1 l2 : List (Nat × β)) (x : Nat) :
    alookup x (l1 ++ l2) =
      match alookup x l1 with
      | some v => some v
      | none => alookup x l2 := by
  induction l1 with
  | nil => simp [alookup]
  | cons p rest ih =>
      by_cases hp : p.1 = x
      · simp [alookup, hp]
      · simp [alookup, hp, ih]

theorem alookup_aupsert {β : Type} (k x : Nat) (v : β) (l : List (Nat × β)) :
    alookup x (aupsert k v l) = if x = k then some v else alookup x l := by
  unfold aupsert
  by_cases hc : (l.map Prod.fst).contains k
  · have hmem : k ∈ l.map Prod.fst := by
      simpa using hc
    obtain ⟨w, hw⟩ := alookup_isSome_of_mem hmem
    rw [if_pos hc, alookup_map_update l k x (fun _ => v)]
    by_cases hx : x = k <;> simp [hx, hw]
  · rw [if_neg hc, alookup_append]
    by_cases hx : x = k
    · subst hx
      have hnone : alookup x l = none := by
        cases he : alookup x l with
        | none => rfl
        | some w => exact absurd (by simpa using mem_of_alookup_isSome he) hc
      simp [hnone, alookup]
    · cases he : alookup x l with
      | none => simp [alookup, hx, Ne.symm hx]
      | some w => simp [hx]

theorem aupsert_keys_of_mem {β : Type} (k : Nat) (v : β) (l : List (Nat × β))
    (h : k ∈ l.map Prod.fst) : (aupsert k v l).map Prod.fst = l.map Prod.fst := by
  unfold aupsert
  have hc : (l.map Prod.fst).contains k := by simpa using h
  rw [if_pos hc, List.map_map]
  refine List.map_congr_left ?_
  intro p _
  by_cases hp : p.1 = k <;> simp [hp]

theorem kHopLoop_succ (g : DiGraph) (k : Nat) (st : Finset Nat × Finset Nat) :
    kHopLoop g (k + 1) st =
      ((kHopLoop g k st).1 ∪ nbrOnce g (kHopLoop g k st).2,
        nbrOnce g (kHopLoop g k st).2) := by
  induction k generalizing st with
  | zero => rfl
  | succ k ih =>
      have h1 : kHopLoop g (k + 1 + 1) st =
          kHopLoop g (k + 1) (st.1 ∪ nbrOnce g st.2, nbrOnce g st.2) := rfl
      have h2 : kHopLoop g (k + 1) st =
          kHopLoop g k (st.1 ∪ nbrOnce g st.2, nbrOnce g st.2) := rfl
      rw [h1, ih, h2]

/-- C6: for a known seed account, the BFS of `get_k_hop_subgraph` succeeds
at every depth and its visited node set at depth `k` is contained in the
visited node set at depth `k + 1`. -/
theorem k_hop_visited_monotone (g : DiGraph) (seed k : Nat) (h : seed ∈ g.nodes) :
    ∃ r r', get_k_hop_subgraph g seed k = some r ∧
      get_k_hop_subgraph g seed (k + 1) = some r' ∧ r.1 ⊆ r'.1 := by
  have hsub : kHopVisited g seed k ⊆ kHopVisited g seed (k + 1) := by
    unfold kHopVisited
    rw [kHopLoop_succ]
    exact Finset.subset_union_left
  refine ⟨(kHopVisited g seed k, (g.subgraph (kHopVisited g seed k)).edges,
      find_cycles_involving_node (g.subgraph (kHopVisited g seed k)) seed),
    (kHopVisited g seed (k + 1), (g.subgraph (kHopVisited g seed (k + 1))).edges,
      find_cycles_involving_node (g.subgraph (kHopVisited g seed (k + 1))) seed),
    ?_, ?_, hsub⟩
  · simp [get_k_hop_subgraph, h]
  · simp [get_k_hop_subgraph, h]

/-- Witness for C6 at a concrete graph: the two-member ring fixture,
seed 0, depths 1 and 2. -/
theorem k_hop_visited_monotone_witness :
    ∃ r r', get_k_hop_subgraph demoRing.1.graph 0 1 = some r ∧
      get_k_hop_subgraph demoRing.1.graph 0 2 = some r' ∧ r.1 ⊆ r'.1 :=
  k_hop_visited_monotone demoRing.1.graph 0 1 (by decide)

/-- C8 (part shared by both conjuncts below): membership in the detected
cycle list implies being a genuine simple cycle through the focus node. -/
theorem find_cycles_sound_and_empty_on_acyclic (g : DiGraph) (node_id : Nat) :
    (∀ c ∈ find_cycles_involving_node g node_id,
      isSimpleCycleOf g.edgePairs c ∧ node_id ∈ c) ∧
    ((∀ c, ¬ isSimpleCycleOf g.edgePairs c) →
      find_cycles_involving_node g node_id = []) := by
  have hsound : ∀ c ∈ find_cycles_involving_node g node_id,
      isSimpleCycleOf g.edgePairs c ∧ node_id ∈ c := by
    intro c hc
    unfold find_cycles_involving_node at hc
    rw [List.mem_filter] at hc
    obtain ⟨hc1, hc2⟩ := hc
    unfold simple_cycles at hc1
    rw [List.mem_filter] at hc1
    exact ⟨of_decide_eq_true hc1.2, of_decide_eq_true hc2⟩
  refine ⟨hsound, fun hno => ?_⟩
  rw [List.eq_nil_iff_forall_not_mem]
  intro c hc
  exact hno c (hsound c hc).1

theorem no_cycle_of_edgePairs_nil {E : List (Nat × Nat)} (hE : E = [])
    (c : List Nat) : ¬ isSimpleCycleOf E c := by
  rintro ⟨hne, _, hedge⟩
  have hlen : 0 < c.length := List.length_pos.mpr hne
  have := hedge 0 hlen
  simp [hE] at this

/-- Witness for C8: on the edgeless six-account fixture the detector
returns the empty list for focus account 3, via the acyclicity branch of
the theorem. -/
theorem find_cycles_sound_and_empty_on_acyclic_witness :
    find_cycles_involving_node demoState6.graph 3 = [] :=
  (find_cycles_sound_and_empty_on_acyclic demoState6.graph 3).2
    (fun c => no_cycle_of_edgePairs_nil (by decide) c)

theorem filter_key_eq_of_nodup {β : Type} {l : List (Nat × β)} {k : Nat} {v : β}
    (hn : (l.map Prod.fst).Nodup) (hv : alookup k l = some v) :
    l.filter (fun p => decide (p.1 = k)) = [(k, v)] := by
  induction l with
  | nil => simp [alookup] at hv
  | cons p rest ih =>
      simp only [List.map_cons, List.nodup_cons] at hn
      by_cases hp : p.1 = k
      · have hv2 : v = p.2 := by
          simp [alookup, hp] at hv
          exact hv.symm
        have hrest : rest.filter (fun p => decide (p.1 = k)) = [] := by
          rw [List.filter_eq_nil]
          intro q hq
          simp only [decide_eq_true_eq]
          intro hqk
          exact hn.1 (hp ▸ hqk ▸ List.mem_map_of_mem Prod.fst hq)
        have hpair : p = (k, v) := by
          cases p
          simp only [Prod.mk.injEq]
          exact ⟨hp, hv2.symm⟩
        simp [List.filter_cons, hp, hrest, hpair]
      · simp only [alookup, hp, if_false] at hv
        simp [List.filter_cons, hp, ih hn.2 hv]

theorem subgraph_singleton_edges (g : DiGraph) (seed : Nat)
    (hn : (g.adj.map Prod.fst).Nodup) (hs : seed ∈ g.nodes) :
    (g.subgraph {seed}).edges =
      ((g.adjOf seed).filter (fun q => decide (q.1 = seed))).map
        (fun q => (seed, q.1, q.2)) := by
  obtain ⟨l0, hl0⟩ := alookup_isSome_of_mem hs
  have hcongr : g.adj.filter (fun p => decide (p.1 ∈ ({seed} : Finset Nat))) =
      g.adj.filter (fun p => decide (p.1 = seed)) := by
    refine List.filter_congr ?_
    intro p _
    simp [Finset.mem_singleton]
  have hfilter : g.adj.filter (fun p => decide (p.1 = seed)) = [(seed, l0)] :=
    filter_key_eq_of_nodup hn hl0
  have hadjOf : g.adjOf seed = l0 := by
    unfold DiGraph.adjOf
    rw [hl0]
    rfl
  unfold DiGraph.subgraph DiGraph.edges
  simp only [hcongr, hfilter, List.map_cons, List.map_nil, List.flatMap_cons,
    List.flatMap_nil, List.append_nil, hadjOf]
  refine congrArg _ (List.filter_congr ?_)
  intro q _
  simp [Finset.mem_singleton]

/-- C7 (amended): for a known seed on a well-formed graph (no duplicate
adjacency keys — true of every graph the generator builds),
`get_k_hop_subgraph(seed, 0)` returns node set `{seed}` and an edge list
consisting exactly of the self-loop transactions stored at `seed`, in
insertion order — empty precisely when `seed` has no self-loop. -/
theorem get_k_hop_zero_nodes_and_self_loops (g : DiGraph) (seed : Nat)
    (hn : (g.adj.map Prod.fst).Nodup) (h : seed ∈ g.nodes) :
    ∃ cycles, get_k_hop_subgraph g seed 0 =
      some ({seed},
        ((g.adjOf seed).filter (fun q => decide (q.1 = seed))).map
          (fun q => (seed, q.1, q.2)),
        cycles) := by
  refine ⟨find_cycles_involving_node (g.subgraph {seed}) seed, ?_⟩
  have h0 : kHopVisited g seed 0 = {seed} := rfl
  simp only [get_k_hop_subgraph, if_pos h, h0, subgraph_singleton_edges g seed hn h]

/-- Witness for the amended C7 at the self-loop fixture: the hypotheses
hold and the hop-0 edge list is exactly the self-loop at account 0. -/
theorem get_k_hop_zero_nodes_and_self_loops_witness :
    ∃ cycles, get_k_hop_subgraph selfLoopState.graph 0 0 =
      some ({0},
        ((selfLoopState.graph.adjOf 0).filter (fun q => decide (q.1 = 0))).map
          (fun q => (0, q.1, q.2)),
        cycles) :=
  get_k_hop_zero_nodes_and_self_loops selfLoopState.graph 0 (by decide) (by decide)

theorem contains_iff (l : List Nat) (x : Nat) : l.contains x = true ↔ x ∈ l := by
  simp [List.contains]

theorem ensureNode_of_mem (g : DiGraph) (u : Nat) (h : u ∈ g.nodes) :
    g.ensureNode u = g := by
  unfold DiGraph.ensureNode
  rw [if_pos ((contains_iff _ _).mpr h)]

theorem add_edge_adj_keys (g : DiGraph) (u v : Nat) (a : EdgeAttrs)
    (hu : u ∈ g.nodes) (hv : v ∈ g.nodes) :
    (g.add_edge u v a).adj.map Prod.fst = g.adj.map Prod.fst := by
  unfold DiGraph.add_edge
  rw [ensureNode_of_mem g u hu, ensureNode_of_mem g v hv]
  dsimp only
  rw [List.map_map]
  refine List.map_congr_left ?_
  intro p _
  by_cases hp : p.1 = u <;> simp [hp]

theorem add_edge_nattr (g : DiGraph) (u v : Nat) (a : EdgeAttrs) :
    (g.add_edge u v a).nattr = g.nattr := by
  unfold DiGraph.add_edge DiGraph.ensureNode
  dsimp only
  split <;> split <;> rfl

theorem markFraud_adj (g : DiGraph) (u : Nat) (pat : String) :
    (g.markFraud u pat).adj = g.adj := rfl

theorem pairwise_of_total {α : Type} {R : α → α → Prop} (h : ∀ a b, R a b)
    (l : List α) : l.Pairwise R := by
  induction l with
  | nil => exact List.Pairwise.nil
  | cons a rest ih => exact List.Pairwise.cons (fun b _ => h a b) ih

/-- Generic preservation of adjacency keys and node attributes across a
fold, given that every step preserves them under the invariant. -/
theorem foldl_preserve {α : Type} (step : DiGraph → α → DiGraph) (K : List Nat)
    (N : List (Nat × NodeAttrs)) :
    ∀ (l : List α) (g : DiGraph), g.adj.map Prod.fst = K → g.nattr = N →
      (∀ g' x, x ∈ l → g'.adj.map Prod.fst = K → g'.nattr = N →
        (step g' x).adj.map Prod.fst = K ∧ (step g' x).nattr = N) →
      (l.foldl step g).adj.map Prod.fst = K ∧ (l.foldl step g).nattr = N := by
  intro l
  induction l with
  | nil => intro g hK hN _; exact ⟨hK, hN⟩
  | cons x rest ih =>
      intro g hK hN hstep
      have h1 := hstep g x (List.mem_cons_self x rest) hK hN
      exact ih (step g x) h1.1 h1.2
        (fun g' y hy => hstep g' y (List.mem_cons_of_mem x hy))

/-- The node attributes `generate_user_features` stores for one account. -/
def baseAttrs (age : Nat → Nat) (risk : Nat → ℚ) (u : Nat) : NodeAttrs :=
  { account_age_days := age u, risk_score_initial := risk u,
    is_fraud := 0, fraud_pattern := none }

theorem map_fst_map_pair {β : Type} (f : Nat → β) (l : List Nat) :
    (l.map (fun u => (u, f u))).map Prod.fst = l := by
  induction l with
  | nil => rfl
  | cons a t ih => simp [ih]

theorem foldl_add_node_fresh (attrs : Nat → NodeAttrs) (n : Nat) :
    (List.range n).foldl (fun g u => g.add_node u (attrs u)) DiGraph.empty =
      { adj := (List.range n).map (fun u => (u, [])),
        nattr := (List.range n).map (fun u => (u, attrs u)) } := by
  induction n with
  | zero => rfl
  | succ m ih =>
      rw [List.range_succ, List.foldl_append, ih]
      dsimp only [List.foldl_cons, List.foldl_nil]
      unfold DiGraph.add_node DiGraph.ensureNode aupsert
      dsimp only [DiGraph.nodes]
      have hk1 : ((List.range m).map (fun u => (u, ([] : List (Nat × EdgeAttrs))))).map Prod.fst
          = List.range m := map_fst_map_pair _ _
      have hk2 : ((List.range m).map (fun u => (u, attrs u))).map Prod.fst
          = List.range m := map_fst_map_pair _ _
      have hm1 : ¬ ((((List.range m).map (fun u => (u, ([] : List (Nat × EdgeAttrs))))).map Prod.fst).contains m = true) := by
        rw [hk1, contains_iff]; simp
      have hm2 : ¬ ((((List.range m).map (fun u => (u, attrs u))).map Prod.fst).contains m = true) := by
        rw [hk2, contains_iff]; simp
      rw [if_neg hm1, if_neg hm2]
      simp [List.range_succ]

/-- The graph after `generate_user_features` on a fresh generator: nodes
`0 .. n-1` in order, no edges, base attributes. -/
theorem generate_user_features_graph (n : Nat) (age : Nat → Nat) (risk : Nat → ℚ) :
    (generate_user_features (initGenerator n) age risk).graph =
      { adj := (List.range n).map (fun u => (u, [])),
        nattr := (List.range n).map (fun u => (u, baseAttrs age risk u)) } :=
  foldl_add_node_fresh (baseAttrs age risk) n

theorem getD_mem_of_lt : ∀ {l : List Nat} {i : Nat}, i < l.length → ∀ d, l.getD i d ∈ l := by
  intro l
  induction l with
  | nil => intro i h; simp at h
  | cons a t ih =>
      intro i h d
      cases i with
      | zero => simp [List.getD]
      | succ j =>
          have hj : j < t.length := by simpa using h
          simp only [List.getD_cons_succ]
          exact List.mem_cons_of_mem a (ih hj d)

theorem foldl_markFraud_adj (pat : String) :
    ∀ (sample : List Nat) (g : DiGraph),
      (sample.foldl (fun g u => g.markFraud u pat) g).adj = g.adj := by
  intro sample
  induction sample with
  | nil => intro g; rfl
  | cons u rest ih => intro g; rw [List.foldl_cons, ih, markFraud_adj]

theorem mem_availableUsers {s : GenState} {u : Nat} (h : u ∈ availableUsers s) :
    u < s.num_users ∧ u ∉ s.fraud_users := by
  unfold availableUsers at h
  rw [List.mem_filter] at h
  refine ⟨List.mem_range.mp h.1, ?_⟩
  have := h.2
  simpa using this

/-- Keys and node attributes survive a fold of `add_edge` calls whose
endpoints are all existing nodes. -/
theorem foldl_add_edge_keys {α : Type} (f t : α → Nat) (attr : α → EdgeAttrs)
    (l : List α) (g : DiGraph)
    (hmem : ∀ x ∈ l, f x ∈ g.adj.map Prod.fst ∧ t x ∈ g.adj.map Prod.fst) :
    (l.foldl (fun g x => g.add_edge (f x) (t x) (attr x)) g).adj.map Prod.fst
        = g.adj.map Prod.fst ∧
      (l.foldl (fun g x => g.add_edge (f x) (t x) (attr x)) g).nattr = g.nattr := by
  refine foldl_preserve _ (g.adj.map Prod.fst) g.nattr l g rfl rfl ?_
  intro g' x hx hK hN
  have h1 : f x ∈ g'.nodes := by
    show f x ∈ g'.adj.map Prod.fst
    rw [hK]; exact (hmem x hx).1
  have h2 : t x ∈ g'.nodes := by
    show t x ∈ g'.adj.map Prod.fst
    rw [hK]; exact (hmem x hx).2
  refine ⟨?_, ?_⟩
  · rw [add_edge_adj_keys g' (f x) (t x) (attr x) h1 h2]; exact hK
  · rw [add_edge_nattr]; exact hN

/-- Same preservation for the normal-traffic fold, whose step skips
self-loop draws. -/
theorem foldl_normal_keys (now : ℤ) (txs : List NormalTx) (g : DiGraph)
    (hmem : ∀ x ∈ txs, x.src ∈ g.adj.map Prod.fst ∧ x.dst ∈ g.adj.map Prod.fst) :
    (txs.foldl (fun g t =>
        if t.src = t.dst then g
        else g.add_edge t.src t.dst (normalEdgeAttr now t)) g).adj.map Prod.fst
        = g.adj.map Prod.fst ∧
      (txs.foldl (fun g t =>
        if t.src = t.dst then g
        else g.add_edge t.src t.dst (normalEdgeAttr now t)) g).nattr = g.nattr := by
  refine foldl_preserve _ (g.adj.map Prod.fst) g.nattr txs g rfl rfl ?_
  intro g' x hx hK hN
  split
  · exact ⟨hK, hN⟩
  · have h1 : x.src ∈ g'.nodes := by
      show x.src ∈ g'.adj.map Prod.fst
      rw [hK]; exact (hmem x hx).1
    have h2 : x.dst ∈ g'.nodes := by
      show x.dst ∈ g'.adj.map Prod.fst
      rw [hK]; exact (hmem x hx).2
    refine ⟨?_, ?_⟩
    · rw [add_edge_adj_keys _ _ _ _ h1 h2]; exact hK
    · rw [add_edge_nattr]; exact hN

theorem stepState_num_users (s : GenState) (i : Inj) :
    (stepState s i).num_users = s.num_users := by
  cases i <;>
    simp only [stepState, inject_cyclic_ring, inject_fanout_pattern,
      inject_rapidfire_pattern, inject_scatter_gather_pattern,
      generate_normal_transactions] <;>
    (try split) <;> rfl

theorem mem_of_mem_enumFrom {α : Type} :
    ∀ {l : List α} {n : Nat} {p : Nat × α}, p ∈ List.enumFrom n l → p.2 ∈ l := by
  intro l
  induction l with
  | nil => intro n p h; simp [List.enumFrom] at h
  | cons a t ih =>
      intro n p h
      simp only [List.enumFrom, List.mem_cons] at h
      rcases h with h | h
      · rw [h]; exact List.mem_cons_self a t
      · exact List.mem_cons_of_mem a (ih h)

theorem mem_of_mem_enum {α : Type} {l : List α} {p : Nat × α}
    (h : p ∈ l.enum) : p.2 ∈ l :=
  mem_of_mem_enumFrom h


/-- Every injector call made under its oracle contracts keeps the node set
of the graph equal to `range num_users`: injections add edges between
existing accounts only. -/
theorem stepState_adj_keys (s : GenState) (i : Inj)
    (hkeys : s.graph.adj.map Prod.fst = List.range s.num_users)
    (hval : ValidInj s i) :
    (stepState s i).graph.adj.map Prod.fst = List.range s.num_users := by
  cases i with
  | ring n sample now =>
      simp only [stepState, inject_cyclic_ring]
      simp only [ValidInj] at hval
      split
      next hg => exact hkeys
      next hg =>
        rw [if_neg hg] at hval
        obtain ⟨hnd, hlen, hmem⟩ := hval
        have hbase : (sample.foldl (fun g u => g.markFraud u "cyclic_ring") s.graph).adj
            = s.graph.adj := foldl_markFraud_adj _ sample s.graph
        have hmemGE : ∀ e ∈ ringEdges sample now,
            e.1 ∈ (sample.foldl (fun g u => g.markFraud u "cyclic_ring") s.graph).adj.map Prod.fst ∧
            e.2.1 ∈ (sample.foldl (fun g u => g.markFraud u "cyclic_ring") s.graph).adj.map Prod.fst := by
          intro e he
          unfold ringEdges at he
          rw [List.mem_map] at he
          obtain ⟨j, hj, rfl⟩ := he
          rw [List.mem_range] at hj
          have hlenpos : 0 < sample.length := Nat.lt_of_le_of_lt (Nat.zero_le j) hj
          have hsrc : sample.getD j 0 ∈ sample := getD_mem_of_lt hj 0
          have hdst : sample.getD ((j + 1) % sample.length) 0 ∈ sample :=
            getD_mem_of_lt (Nat.mod_lt _ hlenpos) 0
          constructor
          · rw [hbase, hkeys]
            exact List.mem_range.mpr (mem_availableUsers (hmem _ hsrc)).1
          · rw [hbase, hkeys]
            exact List.mem_range.mpr (mem_availableUsers (hmem _ hdst)).1
        have hfold := foldl_add_edge_keys (fun e => e.1) (fun e => e.2.1) (fun e => e.2.2)
          (ringEdges sample now)
          (sample.foldl (fun g u => g.markFraud u "cyclic_ring") s.graph) hmemGE
        exact hfold.1.trans (by rw [hbase, hkeys])
  | fanout su nt sc targets now =>
      simp only [stepState, inject_fanout_pattern]
      simp only [ValidInj] at hval
      split
      next hg => exact hkeys
      next hg =>
        rw [if_neg hg] at hval
        have hsrc_lt : (su.getD sc) < s.num_users := by
          cases su with
          | none => exact (mem_availableUsers hval.1).1
          | some u => exact hval.1
        have htg : ∀ t ∈ targets, t < s.num_users := by
          cases su with
          | none =>
              intro t ht
              exact (mem_availableUsers (List.mem_of_mem_erase (hval.2.2.2 t ht))).1
          | some u =>
              intro t ht
              exact (mem_availableUsers (hval.2.2.2 t ht)).1
        have hbase : (s.graph.markFraud (su.getD sc) "fanout_source").adj = s.graph.adj :=
          markFraud_adj _ _ _
        have hmemGE : ∀ x ∈ targets.enum,
            (su.getD sc) ∈ (s.graph.markFraud (su.getD sc) "fanout_source").adj.map Prod.fst ∧
            x.2 ∈ (s.graph.markFraud (su.getD sc) "fanout_source").adj.map Prod.fst := by
          intro x hx
          constructor
          · rw [hbase, hkeys]; exact List.mem_range.mpr hsrc_lt
          · rw [hbase, hkeys]
            exact List.mem_range.mpr (htg x.2 (mem_of_mem_enum hx))
        have hfold := foldl_add_edge_keys (fun _ => su.getD sc) (fun x => x.2)
          (fanoutEdgeAttr nt now) targets.enum
          (s.graph.markFraud (su.getD sc) "fanout_source") hmemGE
        exact hfold.1.trans (by rw [hbase, hkeys])
  | rapidfire uid ntx uc txs now =>
      simp only [stepState, inject_rapidfire_pattern]
      simp only [ValidInj] at hval
      split
      next hg => exact hkeys
      next hg =>
        rw [if_neg hg] at hval
        have huser_lt : (uid.getD uc) < s.num_users := by
          cases uid with
          | none => exact (mem_availableUsers hval.1).1
          | some u => exact hval.1
        have htg : ∀ p ∈ txs, p.1 < s.num_users := by
          cases uid with
          | none => intro p hp; exact (hval.2 p hp).1
          | some u => intro p hp; exact (hval.2 p hp).1
        have hbase : (s.graph.markFraud (uid.getD uc) "rapidfire").adj = s.graph.adj :=
          markFraud_adj _ _ _
        have hmemGE : ∀ x ∈ txs.enum,
            (uid.getD uc) ∈ (s.graph.markFraud (uid.getD uc) "rapidfire").adj.map Prod.fst ∧
            x.2.1 ∈ (s.graph.markFraud (uid.getD uc) "rapidfire").adj.map Prod.fst := by
          intro x hx
          constructor
          · rw [hbase, hkeys]; exact List.mem_range.mpr huser_lt
          · rw [hbase, hkeys]
            exact List.mem_range.mpr (htg x.2 (mem_of_mem_enum hx))
        have hfold := foldl_add_edge_keys (fun _ => uid.getD uc) (fun x => x.2.1)
          (rapidfireEdgeAttr now) txs.enum
          (s.graph.markFraud (uid.getD uc) "rapidfire") hmemGE
        exact hfold.1.trans (by rw [hbase, hkeys])
  | scatter hu ns nt hc sources targets now =>
      simp only [stepState, inject_scatter_gather_pattern]
      simp only [ValidInj] at hval
      split
      next hg => exact hkeys
      next hg =>
        rw [if_neg hg] at hval
        have hhub_lt : (hu.getD hc) < s.num_users := by
          cases hu with
          | none => exact (mem_availableUsers hval.1).1
          | some u => exact hval.1
        have hsrcs : ∀ p ∈ sources, p.1 < s.num_users := by
          cases hu with
          | none =>
              intro p hp
              exact (mem_availableUsers (List.mem_of_mem_erase (hval.2.2.2.1 p hp).1)).1
          | some u =>
              intro p hp
              exact (mem_availableUsers (hval.2.2.2.1 p hp).1).1
        have htgts : ∀ p ∈ targets, p.1 < s.num_users := by
          cases hu with
          | none =>
              intro p hp
              exact (mem_availableUsers (List.mem_of_mem_erase (hval.2.2.2.2.2.2 p hp).1)).1
          | some u =>
              intro p hp
              exact (mem_availableUsers (hval.2.2.2.2.2.2 p hp).1).1
        have hbase : (s.graph.markFraud (hu.getD hc) "scatter_gather_hub").adj = s.graph.adj :=
          markFraud_adj _ _ _
        have hmemG1 : ∀ x ∈ sources.enum,
            x.2.1 ∈ (s.graph.markFraud (hu.getD hc) "scatter_gather_hub").adj.map Prod.fst ∧
            (hu.getD hc) ∈ (s.graph.markFraud (hu.getD hc) "scatter_gather_hub").adj.map Prod.fst := by
          intro x hx
          constructor
          · rw [hbase, hkeys]
            exact List.mem_range.mpr (hsrcs x.2 (mem_of_mem_enum hx))
          · rw [hbase, hkeys]; exact List.mem_range.mpr hhub_lt
        have hfold1 := foldl_add_edge_keys (fun x => x.2.1) (fun _ => hu.getD hc)
          (scatterInEdgeAttr now) sources.enum
          (s.graph.markFraud (hu.getD hc) "scatter_gather_hub") hmemG1
        have hkeys1 : (sources.enum.foldl (fun g ti =>
            g.add_edge ti.2.1 (hu.getD hc) (scatterInEdgeAttr now ti))
            (s.graph.markFraud (hu.getD hc) "scatter_gather_hub")).adj.map Prod.fst
            = List.range s.num_users := hfold1.1.trans (by rw [hbase, hkeys])
        have hmemG2 : ∀ x ∈ targets.enum,
            (hu.getD hc) ∈ (sources.enum.foldl (fun ti2g => fun ti =>
              ti2g.add_edge ti.2.1 (hu.getD hc) (scatterInEdgeAttr now ti))
              (s.graph.markFraud (hu.getD hc) "scatter_gather_hub")).adj.map Prod.fst ∧
            x.2.1 ∈ (sources.enum.foldl (fun ti2g => fun ti =>
              ti2g.add_edge ti.2.1 (hu.getD hc) (scatterInEdgeAttr now ti))
              (s.graph.markFraud (hu.getD hc) "scatter_gather_hub")).adj.map Prod.fst := by
          intro x hx
          constructor
          · rw [hkeys1]; exact List.mem_range.mpr hhub_lt
          · rw [hkeys1]
            exact List.mem_range.mpr (htgts x.2 (mem_of_mem_enum hx))
        have hfold2 := foldl_add_edge_keys (fun _ => hu.getD hc) (fun x => x.2.1)
          (scatterOutEdgeAttr ns now) targets.enum
          (sources.enum.foldl (fun g ti =>
            g.add_edge ti.2.1 (hu.getD hc) (scatterInEdgeAttr now ti))
            (s.graph.markFraud (hu.getD hc) "scatter_gather_hub")) hmemG2
        exact hfold2.1.trans hkeys1
  | normal txs now =>
      simp only [stepState, generate_normal_transactions]
      simp only [ValidInj] at hval
      have hmemGE : ∀ x ∈ txs, x.src ∈ s.graph.adj.map Prod.fst ∧
          x.dst ∈ s.graph.adj.map Prod.fst := by
        intro x hx
        constructor
        · rw [hkeys]; exact List.mem_range.mpr (hval x hx).1
        · rw [hkeys]; exact List.mem_range.mpr (hval x hx).2.1
      exact (foldl_normal_keys now txs s.graph hmemGE).1.trans hkeys

theorem runState_adj_keys (injs : List Inj) :
    ∀ (s : GenState), s.graph.adj.map Prod.fst = List.range s.num_users →
      ValidRun s injs →
      (runState s injs).graph.adj.map Prod.fst = List.range s.num_users ∧
      (runState s injs).num_users = s.num_users := by
  induction injs with
  | nil => intro s hk _; exact ⟨hk, rfl⟩
  | cons i rest ih =>
      intro s hk hval
      obtain ⟨hvi, hvr⟩ := hval
      have hk1 := stepState_adj_keys s i hk hvi
      have hn1 := stepState_num_users s i
      have := ih (stepState s i) (by rw [hn1]; exact hk1) hvr
      refine ⟨?_, ?_⟩
      · show (runState (stepState s i) rest).graph.adj.map Prod.fst = _
        rw [this.1, hn1]
      · show (runState (stepState s i) rest).num_users = _
        rw [this.2, hn1]

theorem pairwise_le_flat (l : List (Nat × List (Nat × EdgeAttrs)))
    (hs : List.Pairwise (fun a b => a < b) (l.map Prod.fst)) :
    List.Pairwise (fun a b => a ≤ b)
      ((l.flatMap (fun p => p.2.map (fun q => (p.1, q.1, q.2)))).map (fun e => e.1)) := by
  induction l with
  | nil => simp
  | cons p rest ih =>
      rw [List.map_cons, List.pairwise_cons] at hs
      simp only [List.flatMap_cons, List.map_append, List.map_map]
      rw [List.pairwise_append]
      refine ⟨?_, ?_, ?_⟩
      · exact List.pairwise_map.mpr (pairwise_of_total (fun _ _ => le_refl p.1) _)
      · have := ih hs.2
        simpa [List.map_map] using this
      · intro a ha b hb
        rw [List.mem_map] at ha
        obtain ⟨q, _, rfl⟩ := ha
        rw [List.mem_map] at hb
        obtain ⟨e, he, rfl⟩ := hb
        rw [List.mem_flatMap] at he
        obtain ⟨p', hp', he2⟩ := he
        rw [List.mem_map] at he2
        obtain ⟨q', _, rfl⟩ := he2
        exact le_of_lt (hs.1 p'.1 (List.mem_map_of_mem Prod.fst hp'))

theorem subgraph_edges_sources_sorted (g : DiGraph) (S : Finset Nat)
    (hs : List.Pairwise (fun a b => a < b) (g.adj.map Prod.fst)) :
    List.Pairwise (fun a b => a ≤ b) ((g.subgraph S).edges.map (fun e => e.1)) := by
  refine pairwise_le_flat _ ?_
  have hkeys : (g.subgraph S).adj.map Prod.fst =
      (g.adj.filter (fun p => decide (p.1 ∈ S))).map Prod.fst := by
    unfold DiGraph.subgraph
    rw [List.map_map]
    exact List.map_congr_left (fun p _ => rfl)
  rw [hkeys]
  exact List.Pairwise.sublist ((List.filter_sublist _).map Prod.fst) hs

/-- C9 (amended): for every graph the generator can build (user features
then any run of injector calls under their oracle contracts) and every
known seed, the edge list that `get_k_hop_subgraph` renders is
deterministic and grouped by source account with the source ids in
nondecreasing order; within one source the edges appear in first-insertion
order (an update of an existing ordered pair keeps its position), NOT
sorted by destination. -/
theorem edge_iteration_source_sorted (n : Nat) (age : Nat → Nat) (risk : Nat → ℚ)
    (injs : List Inj) (seed k : Nat)
    (hval : ValidRun (generate_user_features (initGenerator n) age risk) injs)
    (hseed : seed ∈ (runState (generate_user_features (initGenerator n) age risk) injs).graph.nodes) :
    ∃ r, get_k_hop_subgraph
        (runState (generate_user_features (initGenerator n) age risk) injs).graph seed k
        = some r ∧
      List.Pairwise (fun a b => a ≤ b) (r.2.1.map (fun e => e.1)) := by
  have hkeys0 : (generate_user_features (initGenerator n) age risk).graph.adj.map Prod.fst
      = List.range (generate_user_features (initGenerator n) age risk).num_users := by
    rw [generate_user_features_graph]
    exact map_fst_map_pair _ _
  have hrun := runState_adj_keys injs (generate_user_features (initGenerator n) age risk)
    hkeys0 hval
  have hsorted : List.Pairwise (fun a b => a < b)
      ((runState (generate_user_features (initGenerator n) age risk) injs).graph.adj.map Prod.fst) := by
    rw [hrun.1]
    exact List.sorted_lt_range _
  refine ⟨(kHopVisited (runState (generate_user_features (initGenerator n) age risk) injs).graph seed k,
      ((runState (generate_user_features (initGenerator n) age risk) injs).graph.subgraph
        (kHopVisited (runState (generate_user_features (initGenerator n) age risk) injs).graph seed k)).edges,
      find_cycles_involving_node
        ((runState (generate_user_features (initGenerator n) age risk) injs).graph.subgraph
          (kHopVisited (runState (generate_user_features (initGenerator n) age risk) injs).graph seed k))
        seed),
    ?_, ?_⟩
  · simp [get_k_hop_subgraph, hseed]
  · exact subgraph_edges_sources_sorted _ _ hsorted

/-- A three-account generator after a rapid-fire injection whose oracle
drew target 2 before target 1 (both draws respect the library contracts),
so account 0's adjacency stores 0→2 before 0→1. -/
def destOrderState : GenState :=
  runState (generate_user_features (initGenerator 3) (fun _ => 100) (fun _ => 0))
    [Inj.rapidfire none 2 0 [(2, 100), (1, 60)] 0]

/-- C9 counterexample: on `destOrderState` (built by a fully
contract-respecting run), the edge list `get_k_hop_subgraph(0, 1)` renders
is 0→2 followed by 0→1 — within one source the destinations follow
insertion order, not the claimed (source id, destination id, insertion)
sort, which this list violates. -/
theorem edge_iteration_not_dest_sorted_counterexample :
    ValidRun (generate_user_features (initGenerator 3) (fun _ => 100) (fun _ => 0))
      [Inj.rapidfire none 2 0 [(2, 100), (1, 60)] 0] ∧
    (get_k_hop_subgraph destOrderState.graph 0 1).map
      (fun r => r.2.1.map (fun e => (e.1, e.2.1))) = some [(0, 2), (0, 1)] ∧
    ¬ List.Pairwise (fun e e' : Nat × Nat =>
        e.1 < e'.1 ∨ (e.1 = e'.1 ∧ e.2 ≤ e'.2)) [(0, 2), (0, 1)] :=
  ⟨by decide, by decide, by decide⟩

/-- Witness for the amended C9 at the same concrete run: the source
components of the rendered edge list are nondecreasing. -/
theorem edge_iteration_source_sorted_witness :
    ∃ r, get_k_hop_subgraph
        (runState (generate_user_features (initGenerator 3) (fun _ => 100) (fun _ => 0))
          [Inj.rapidfire none 2 0 [(2, 100), (1, 60)] 0]).graph 0 1
        = some r ∧
      List.Pairwise (fun a b => a ≤ b) (r.2.1.map (fun e => e.1)) :=
  edge_iteration_source_sorted 3 (fun _ => 100) (fun _ => 0)
    [Inj.rapidfire none 2 0 [(2, 100), (1, 60)] 0] 0 1 (by decide) (by decide)

theorem adjOf_ensureNode (g : DiGraph) (w x : Nat) :
    (g.ensureNode w).adjOf x = g.adjOf x := by
  unfold DiGraph.ensureNode DiGraph.adjOf
  split
  · rfl
  · dsimp only
    rw [alookup_append]
    cases he : alookup x g.adj with
    | some l => simp
    | none =>
        by_cases hx : w = x
        · simp [alookup, hx]
        · simp [alookup, hx]

theorem mem_nodes_ensureNode_self (g : DiGraph) (u : Nat) :
    u ∈ (g.ensureNode u).nodes := by
  unfold DiGraph.ensureNode
  split
  next h => exact (contains_iff _ _).mp h
  next h =>
      show u ∈ (g.adj ++ [(u, [])]).map Prod.fst
      rw [List.map_append]
      exact List.mem_append_right _ (by simp)

theorem mem_nodes_ensureNode_mono (g : DiGraph) (w u : Nat) (h : u ∈ g.nodes) :
    u ∈ (g.ensureNode w).nodes := by
  unfold DiGraph.ensureNode
  split
  · exact h
  · show u ∈ (g.adj ++ [(w, [])]).map Prod.fst
    rw [List.map_append]
    exact List.mem_append_left _ h

theorem getEdge_add_edge_self (g : DiGraph) (u v : Nat) (a : EdgeAttrs) :
    (g.add_edge u v a).getEdge u v = some a := by
  unfold DiGraph.add_edge DiGraph.getEdge DiGraph.adjOf
  dsimp only
  rw [alookup_map_update ((g.ensureNode u).ensureNode v).adj u u (fun l => aupsert v a l),
    if_pos rfl]
  have hmem : u ∈ ((g.ensureNode u).ensureNode v).nodes :=
    mem_nodes_ensureNode_mono _ v u (mem_nodes_ensureNode_self g u)
  obtain ⟨l0, hl0⟩ := alookup_isSome_of_mem hmem
  rw [hl0]
  simp only [Option.map_some', Option.getD_some]
  rw [alookup_aupsert, if_pos rfl]

theorem getEdge_add_edge_other (g : DiGraph) (u v x y : Nat) (a : EdgeAttrs)
    (h : ¬(x = u ∧ y = v)) :
    (g.add_edge u v a).getEdge x y = g.getEdge x y := by
  unfold DiGraph.add_edge DiGraph.getEdge DiGraph.adjOf
  dsimp only
  rw [alookup_map_update ((g.ensureNode u).ensureNode v).adj u x (fun l => aupsert v a l)]
  have hadj : ∀ z, ((g.ensureNode u).ensureNode v).adjOf z = g.adjOf z := by
    intro z
    rw [adjOf_ensureNode, adjOf_ensureNode]
  by_cases hx : x = u
  · subst hx
    have hy : ¬ y = v := fun hy => h ⟨rfl, hy⟩
    have hmem : x ∈ ((g.ensureNode x).ensureNode v).nodes :=
      mem_nodes_ensureNode_mono _ v x (mem_nodes_ensureNode_self g x)
    obtain ⟨l0, hl0⟩ := alookup_isSome_of_mem hmem
    rw [if_pos rfl, hl0]
    simp only [Option.map_some', Option.getD_some]
    rw [alookup_aupsert, if_neg hy]
    have : g.adjOf x = l0 := by
      rw [← hadj x]
      unfold DiGraph.adjOf
      rw [hl0]
      rfl
    rw [← this]
    rfl
  · rw [if_neg hx]
    have := hadj x
    unfold DiGraph.adjOf at this
    rw [this]

theorem getEdge_foldl_not_mem :
    ∀ (l : List (Nat × Nat × EdgeAttrs)) (g : DiGraph) (x y : Nat),
      (∀ e ∈ l, ¬(x = e.1 ∧ y = e.2.1)) →
      ((l.foldl (fun g e => g.add_edge e.1 e.2.1 e.2.2) g).getEdge x y = g.getEdge x y) := by
  intro l
  induction l with
  | nil => intro g x y _; rfl
  | cons e rest ih =>
      intro g x y h
      rw [List.foldl_cons]
      rw [ih (g.add_edge e.1 e.2.1 e.2.2) x y
        (fun e' he' => h e' (List.mem_cons_of_mem e he'))]
      exact getEdge_add_edge_other g e.1 e.2.1 x y e.2.2 (h e (List.mem_cons_self e rest))

theorem getEdge_foldl_mem :
    ∀ (l : List (Nat × Nat × EdgeAttrs)) (g : DiGraph),
      (l.map (fun e => (e.1, e.2.1))).Nodup →
      ∀ e ∈ l, (l.foldl (fun g e => g.add_edge e.1 e.2.1 e.2.2) g).getEdge e.1 e.2.1
        = some e.2.2 := by
  intro l
  induction l with
  | nil => intro g _ e he; simp at he
  | cons e0 rest ih =>
      intro g hnd e he
      rw [List.map_cons, List.nodup_cons] at hnd
      rw [List.foldl_cons]
      rcases List.mem_cons.mp he with he | he
      · subst he
        rw [getEdge_foldl_not_mem rest (g.add_edge e.1 e.2.1 e.2.2) e.1 e.2.1 ?_]
        · exact getEdge_add_edge_self g e.1 e.2.1 e.2.2
        · intro e' he' hc
          exact hnd.1 (by
            rw [hc.1, hc.2]
            exact List.mem_map_of_mem (fun e => (e.1, e.2.1)) he')
      · exact ih (g.add_edge e0.1 e0.2.1 e0.2.2) hnd.2 e he

theorem foldl_markFraud_nattr (pat : String) :
    ∀ (sample : List Nat) (g : DiGraph),
      (sample.foldl (fun g u => g.markFraud u pat) g).nattr =
        g.nattr.map (fun p => if p.1 ∈ sample then (p.1, markAttrs pat p.2) else p) := by
  intro sample
  induction sample with
  | nil =>
      intro g
      refine ((List.map_congr_left ?_).trans (List.map_id _)).symm
      intro p _
      simp
  | cons u rest ih =>
      intro g
      rw [List.foldl_cons, ih, DiGraph.markFraud, List.map_map]
      refine List.map_congr_left ?_
      intro p _
      by_cases hpu : p.1 = u
      · subst hpu
        by_cases hpr : p.1 ∈ rest <;>
          simp [hpr, markAttrs]
      · by_cases hpr : p.1 ∈ rest <;>
          simp [hpu, hpr, Function.comp]

theorem foldl_add_edge_nattr :
    ∀ (l : List (Nat × Nat × EdgeAttrs)) (g : DiGraph),
      (l.foldl (fun g e => g.add_edge e.1 e.2.1 e.2.2) g).nattr = g.nattr := by
  intro l
  induction l with
  | nil => intro g; rfl
  | cons e rest ih =>
      intro g
      rw [List.foldl_cons, ih, add_edge_nattr]

theorem ringEdges_pairs_nodup (sample : List Nat) (now : ℤ) (hnd : sample.Nodup) :
    ((ringEdges sample now).map (fun e => (e.1, e.2.1))).Nodup := by
  unfold ringEdges
  rw [List.map_map]
  refine List.Nodup.map_on ?_ (List.nodup_range _)
  intro i hi j hj hij
  rw [List.mem_range] at hi hj
  dsimp only [Function.comp, ringEdge] at hij
  rw [Prod.mk.injEq] at hij
  have h1 := hij.1
  rw [List.getD_eq_get sample 0 hi, List.getD_eq_get sample 0 hj] at h1
  have := (List.Nodup.get_inj_iff hnd).mp h1
  exact congrArg Fin.val this

theorem availableUsers_features (n : Nat) (age : Nat → Nat) (risk : Nat → ℚ) :
    availableUsers (generate_user_features (initGenerator n) age risk) = List.range n := by
  unfold availableUsers generate_user_features initGenerator
  dsimp only
  refine List.filter_eq_self.mpr ?_
  intro u _
  simp

theorem countP_mem_range {sample : List Nat} {n : Nat}
    (hnd : sample.Nodup) (hsub : ∀ u ∈ sample, u < n) :
    (List.range n).countP (fun u => decide (u ∈ sample)) = sample.length := by
  rw [List.countP_eq_length_filter]
  have hperm : List.Perm ((List.range n).filter (fun u => decide (u ∈ sample))) sample := by
    apply List.perm_of_nodup_nodup_toFinset_eq
    · exact List.Nodup.filter _ (List.nodup_range n)
    · exact hnd
    · ext x
      simp only [List.mem_toFinset, List.mem_filter, List.mem_range, decide_eq_true_eq]
      constructor
      · rintro ⟨_, h⟩; exact h
      · intro h; exact ⟨hsub x h, h⟩
  exact hperm.length_eq

/-- C5 (amended): on a fresh 100-account graph, a cyclic-ring injection of
size 5 marks exactly 5 accounts with fraud_pattern cyclic_ring, and the
ring transaction from member `i` to member `(i+1) mod 5` carries the
ROUNDED amount `round(1000 * 0.95 ** i, 2)`: 1000, 950 and 902.5 at steps
0-2, 814.51 (not the unrounded 814.50625) at step 4, and at step 3 an
amount within 0.005 of — but different from — the unrounded 857.375 (the
exact value 857.375 is a rounding tie, which binary floating point settles
to 857.37). -/
theorem ring_injection_marks_and_amounts (age : Nat → Nat) (risk : Nat → ℚ)
    (sample : List Nat) (now : ℤ)
    (h1 : sample.Nodup) (h2 : sample.length = 5) (h3 : ∀ u ∈ sample, u < 100) :
    ((inject_cyclic_ring (generate_user_features (initGenerator 100) age risk) 5 sample now).1.graph.nattr.countP
        (fun p => decide (p.2.fraud_pattern = some "cyclic_ring")) = 5) ∧
    (∀ i, i < 5 →
      (inject_cyclic_ring (generate_user_features (initGenerator 100) age risk) 5 sample now).1.graph.getEdge
          (sample.getD i 0) (sample.getD ((i + 1) % 5) 0)
        = some (ringEdge sample now i).2.2) ∧
    (ringEdge sample now 0).2.2.amount = 1000 ∧
    (ringEdge sample now 1).2.2.amount = 950 ∧
    (ringEdge sample now 2).2.2.amount = 1805 / 2 ∧
    (ringEdge sample now 4).2.2.amount = 81451 / 100 ∧
    |(ringEdge sample now 3).2.2.amount - 857375 / 1000| ≤ 1 / 200 ∧
    (ringEdge sample now 3).2.2.amount ≠ 857375 / 1000 := by
  have hguard : ¬ ((availableUsers (generate_user_features (initGenerator 100) age risk)).length < 5) := by
    rw [availableUsers_features]
    simp
  simp only [inject_cyclic_ring, if_neg hguard]
  refine ⟨?_, ?_, ?_, ?_, ?_, ?_, ?_, ?_⟩
  · rw [foldl_add_edge_nattr, foldl_markFraud_nattr, generate_user_features_graph]
    dsimp only
    rw [List.map_map, List.countP_map]
    refine Eq.trans
      (List.countP_congr (fun u hu => ?_) :
        _ = (List.range 100).countP (fun u => decide (u ∈ sample))) ?_
    · by_cases hu2 : u ∈ sample <;>
        simp [hu2, markAttrs, baseAttrs, Function.comp]
    · rw [countP_mem_range h1 h3, h2]
  · intro i hi
    have hmem : ringEdge sample now i ∈ ringEdges sample now := by
      unfold ringEdges
      exact List.mem_map_of_mem _ (List.mem_range.mpr (by rw [h2]; exact hi))
    have := getEdge_foldl_mem (ringEdges sample now)
      (sample.foldl (fun g u => g.markFraud u "cyclic_ring")
        (generate_user_features (initGenerator 100) age risk).graph)
      (ringEdges_pairs_nodup sample now h1) (ringEdge sample now i) hmem
    dsimp only [ringEdge] at this
    rw [h2] at this
    exact this
  · simp only [ringEdge]; decide
  · simp only [ringEdge]; decide
  · simp only [ringEdge]; decide
  · simp only [ringEdge]; decide
  · simp only [ringEdge]; decide
  · simp only [ringEdge]; decide

set_option maxRecDepth 100000 in
/-- C5 counterexample: evaluated at sample `[0, 1, 2, 3, 4]` on a fresh
100-account graph, the ring transaction of step 4 (from account 4 back to
account 0) is stored with amount 814.51, not the claim's unrounded
`1000 * 0.95 ** 4 = 814.50625`: the injector rounds every amount to two
decimals before storing it. -/
theorem ring_amount_rounded_counterexample :
    (inject_cyclic_ring (generate_user_features (initGenerator 100) (fun _ => 100) (fun _ => 0))
        5 [0, 1, 2, 3, 4] 0).1.graph.getEdge 4 0
      = some (ringEdge [0, 1, 2, 3, 4] 0 4).2.2 ∧
    (ringEdge [0, 1, 2, 3, 4] 0 4).2.2.amount = 81451 / 100 ∧
    (81451 / 100 : ℚ) ≠ 130321 / 160 :=
  ⟨by decide, by decide, by decide⟩

set_option maxRecDepth 100000 in
/-- Witness for the amended C5 at the concrete sample `[0, 1, 2, 3, 4]`. -/
theorem ring_injection_marks_and_amounts_witness :
    ((inject_cyclic_ring (generate_user_features (initGenerator 100) (fun _ => 100) (fun _ => 0))
        5 [0, 1, 2, 3, 4] 7).1.graph.nattr.countP
        (fun p => decide (p.2.fraud_pattern = some "cyclic_ring")) = 5) ∧
    (∀ i, i < 5 →
      (inject_cyclic_ring (generate_user_features (initGenerator 100) (fun _ => 100) (fun _ => 0))
          5 [0, 1, 2, 3, 4] 7).1.graph.getEdge
          ([0, 1, 2, 3, 4].getD i 0) ([0, 1, 2, 3, 4].getD ((i + 1) % 5) 0)
        = some (ringEdge [0, 1, 2, 3, 4] 7 i).2.2) ∧
    (ringEdge [0, 1, 2, 3, 4] 7 0).2.2.amount = 1000 ∧
    (ringEdge [0, 1, 2, 3, 4] 7 1).2.2.amount = 950 ∧
    (ringEdge [0, 1, 2, 3, 4] 7 2).2.2.amount = 1805 / 2 ∧
    (ringEdge [0, 1, 2, 3, 4] 7 4).2.2.amount = 81451 / 100 ∧
    |(ringEdge [0, 1, 2, 3, 4] 7 3).2.2.amount - 857375 / 1000| ≤ 1 / 200 ∧
    (ringEdge [0, 1, 2, 3, 4] 7 3).2.2.amount ≠ 857375 / 1000 :=
  ring_injection_marks_and_amounts (fun _ => 100) (fun _ => 0) [0, 1, 2, 3, 4] 7
    (by decide) (by decide) (by decide)

theorem stepMarked_avail (s : GenState) (i : Inj)
    (hval : ValidInj s i) (hsc : SelfChosen i) :
    ∀ u ∈ stepMarked s i, u ∈ availableUsers s := by
  cases i with
  | ring n sample now =>
      simp only [stepMarked]
      simp only [ValidInj] at hval
      split
      next hg => intro u hu; simp at hu
      next hg =>
          rw [if_neg hg] at hval
          exact hval.2.2
  | fanout su nt sc targets now =>
      have hsu : su = none := hsc
      subst hsu
      simp only [stepMarked]
      simp only [ValidInj] at hval
      split
      next hg => intro u hu; simp at hu
      next hg =>
          rw [if_neg hg] at hval
          intro u hu
          rw [List.mem_singleton] at hu
          subst hu
          exact hval.1
  | rapidfire uid ntx uc txs now =>
      have huid : uid = none := hsc
      subst huid
      simp only [stepMarked]
      simp only [ValidInj] at hval
      split
      next hg => intro u hu; simp at hu
      next hg =>
          rw [if_neg hg] at hval
          intro u hu
          rw [List.mem_singleton] at hu
          subst hu
          exact hval.1
  | scatter hu ns nt hc sources targets now =>
      have hhu : hu = none := hsc
      subst hhu
      simp only [stepMarked]
      simp only [ValidInj] at hval
      split
      next hg => intro u hu; simp at hu
      next hg =>
          rw [if_neg hg] at hval
          intro u hu2
          rw [List.mem_singleton] at hu2
          subst hu2
          exact hval.1
  | normal txs now => intro u hu; simp [stepMarked] at hu

theorem stepMarked_fraud_after (s : GenState) (i : Inj) :
    ∀ u ∈ stepMarked s i, u ∈ (stepState s i).fraud_users := by
  cases i with
  | ring n sample now =>
      simp only [stepMarked, stepState, inject_cyclic_ring]
      split
      next hg => intro u hu; simp at hu
      next hg =>
          intro u hu
          exact Finset.mem_union_right _ (List.mem_toFinset.mpr hu)
  | fanout su nt sc targets now =>
      simp only [stepMarked, stepState, inject_fanout_pattern]
      split
      next hg => intro u hu; simp at hu
      next hg =>
          intro u hu
          rw [List.mem_singleton] at hu
          subst hu
          exact Finset.mem_insert_self _ _
  | rapidfire uid ntx uc txs now =>
      simp only [stepMarked, stepState, inject_rapidfire_pattern]
      split
      next hg => intro u hu; simp at hu
      next hg =>
          intro u hu
          rw [List.mem_singleton] at hu
          subst hu
          exact Finset.mem_insert_self _ _
  | scatter hu ns nt hc sources targets now =>
      simp only [stepMarked, stepState, inject_scatter_gather_pattern]
      split
      next hg => intro u hu; simp at hu
      next hg =>
          intro u hu2
          rw [List.mem_singleton] at hu2
          subst hu2
          exact Finset.mem_insert_self _ _
  | normal txs now => intro u hu; simp [stepMarked] at hu

theorem fraud_users_mono (s : GenState) (i : Inj) :
    s.fraud_users ⊆ (stepState s i).fraud_users := by
  cases i with
  | ring n sample now =>
      simp only [stepState, inject_cyclic_ring]
      split
      · exact Finset.Subset.refl _
      · exact Finset.subset_union_left
  | fanout su nt sc targets now =>
      simp only [stepState, inject_fanout_pattern]
      split
      · exact Finset.Subset.refl _
      · exact Finset.subset_insert _ _
  | rapidfire uid ntx uc txs now =>
      simp only [stepState, inject_rapidfire_pattern]
      split
      · exact Finset.Subset.refl _
      · exact Finset.subset_insert _ _
  | scatter hu ns nt hc sources targets now =>
      simp only [stepState, inject_scatter_gather_pattern]
      split
      · exact Finset.Subset.refl _
      · exact Finset.subset_insert _ _
  | normal txs now => exact Finset.Subset.refl _

theorem runMarked_avoid (injs : List Inj) :
    ∀ (s : GenState), ValidRun s injs → (∀ i ∈ injs, SelfChosen i) →
      ∀ M ∈ runMarked s injs, ∀ u ∈ M, u ∉ s.fraud_users := by
  induction injs with
  | nil => intro s _ _ M hM; simp [runMarked] at hM
  | cons i rest ih =>
      intro s hval hsc M hM u hu
      obtain ⟨hvi, hvr⟩ := hval
      rcases List.mem_cons.mp hM with hM | hM
      · subst hM
        exact (mem_availableUsers
          (stepMarked_avail s i hvi (hsc i (List.mem_cons_self i rest)) u hu)).2
      · intro habs
        exact ih (stepState s i) hvr
          (fun j hj => hsc j (List.mem_cons_of_mem i hj)) M hM u hu
          (fraud_users_mono s i habs)

/-- C1: in any generation run whose injector calls choose their focal
accounts themselves (no caller-supplied focal account) and whose oracle
draws respect the library contracts, the per-call sets of accounts marked
fraudulent are pairwise disjoint: every injector draws only from accounts
no prior fraud pattern has claimed. -/
theorem fraud_pattern_sets_pairwise_disjoint (s : GenState) (injs : List Inj)
    (hval : ValidRun s injs) (hsc : ∀ i ∈ injs, SelfChosen i) :
    List.Pairwise (fun A B => ∀ u ∈ A, u ∉ B) (runMarked s injs) := by
  induction injs generalizing s with
  | nil => exact List.Pairwise.nil
  | cons i rest ih =>
      obtain ⟨hvi, hvr⟩ := hval
      refine List.Pairwise.cons ?_
        (ih (stepState s i) hvr (fun j hj => hsc j (List.mem_cons_of_mem i hj)))
      intro B hB u hu huB
      have h1 : u ∈ (stepState s i).fraud_users := stepMarked_fraud_after s i u hu
      exact runMarked_avoid rest (stepState s i) hvr
        (fun j hj => hsc j (List.mem_cons_of_mem i hj)) B hB u huB h1

/-- Witness for C1: a concrete six-account run — self-chosen ring over
accounts 0, 1, then a self-chosen fan-out with source 2 and target 3, then
normal traffic — has pairwise disjoint marked sets. -/
theorem fraud_pattern_sets_pairwise_disjoint_witness :
    List.Pairwise (fun A B => ∀ u ∈ A, u ∉ B)
      (runMarked demoState6
        [Inj.ring 2 [0, 1] 0, Inj.fanout none 1 2 [3] 0,
          Inj.normal [demoNormalTx] 0]) :=
  fraud_pattern_sets_pairwise_disjoint demoState6
    [Inj.ring 2 [0, 1] 0, Inj.fanout none 1 2 [3] 0, Inj.normal [demoNormalTx] 0]
    (by decide) (by decide)

/-- The ordered (source, destination) pairs of the transactions one
cyclic-ring injection creates. -/
def ringTxPairs (sample : List Nat) (now : ℤ) : List (Nat × Nat) :=
  (ringEdges sample now).map (fun e => (e.1, e.2.1))

theorem mem_ringTxPairs {sample : List Nat} {now : ℤ} {a b : Nat} :
    (a, b) ∈ ringTxPairs sample now ↔
      ∃ i, i < sample.length ∧ a = sample.getD i 0 ∧
        b = sample.getD ((i + 1) % sample.length) 0 := by
  unfold ringTxPairs ringEdges
  rw [List.map_map, List.mem_map]
  constructor
  · rintro ⟨i, hi, heq⟩
    rw [List.mem_range] at hi
    dsimp only [Function.comp, ringEdge] at heq
    rw [Prod.mk.injEq] at heq
    exact ⟨i, hi, heq.1.symm, heq.2.symm⟩
  · rintro ⟨i, hi, rfl, rfl⟩
    exact ⟨i, List.mem_range.mpr hi, by dsimp only [Function.comp, ringEdge]⟩

theorem sample_index_unique {sample : List Nat} (hnd : sample.Nodup) {i j : Nat}
    (hi : i < sample.length) (hj : j < sample.length)
    (h : sample.getD i 0 = sample.getD j 0) : i = j := by
  rw [List.getD_eq_get sample 0 hi, List.getD_eq_get sample 0 hj] at h
  exact congrArg Fin.val ((List.Nodup.get_inj_iff hnd).mp h)

theorem mod_eq_zero_of_add_mod_left {t m n : Nat} (ht : t < n)
    (h : (t + m) % n = t) : m % n = 0 := by
  have hn : 0 < n := Nat.lt_of_le_of_lt (Nat.zero_le t) ht
  have h2 : (t + m % n) % n = t := by
    conv_lhs => rw [Nat.add_mod]
    rw [Nat.mod_mod, ← Nat.add_mod]
    exact h
  have hr : m % n < n := Nat.mod_lt _ hn
  by_cases hc : t + m % n < n
  · rw [Nat.mod_eq_of_lt hc] at h2
    omega
  · push_neg at hc
    have hlt : t + m % n - n < n := by omega
    rw [Nat.mod_eq_sub_mod hc, Nat.mod_eq_of_lt hlt] at h2
    omega

/-- C4: the transactions of one cyclic-ring injection over a duplicate-free
member list of size at least 2 form exactly one simple directed cycle: the
member list itself is a simple cycle over those transaction pairs, and any
simple cycle over them is a rotation of the member list — it visits all
members, each exactly once, and no other simple cycle exists. -/
theorem ring_edges_unique_simple_cycle (sample : List Nat) (now : ℤ)
    (hnd : sample.Nodup) (hlen : 2 ≤ sample.length) :
    isSimpleCycleOf (ringTxPairs sample now) sample ∧
    (∀ c, isSimpleCycleOf (ringTxPairs sample now) c →
      ∃ k, k < sample.length ∧ c = sample.rotate k) := by
  have hnpos : 0 < sample.length := Nat.lt_of_lt_of_le (by norm_num) hlen
  constructor
  · refine ⟨List.length_pos.mp hnpos, hnd, ?_⟩
    intro j hj
    exact mem_ringTxPairs.mpr ⟨j, hj, rfl, rfl⟩
  · rintro c ⟨hcne, hcnd, hce⟩
    have hmpos : 0 < c.length := List.length_pos.mpr hcne
    obtain ⟨t, ht, ht0, _⟩ := mem_ringTxPairs.mp (hce 0 hmpos)
    have hstep : ∀ j, j < c.length →
        c.getD j 0 = sample.getD ((t + j) % sample.length) 0 := by
      intro j
      induction j with
      | zero =>
          intro _
          rw [Nat.add_zero, Nat.mod_eq_of_lt ht]
          exact ht0
      | succ j ihj =>
          intro hj1
          have hj : j < c.length := Nat.lt_of_succ_lt hj1
          have hcj := ihj hj
          obtain ⟨i, hi, hia, hib⟩ := mem_ringTxPairs.mp (hce j hj)
          have hieq : i = (t + j) % sample.length := by
            apply sample_index_unique hnd hi (Nat.mod_lt _ hnpos)
            rw [← hia, hcj]
          have hmod : (j + 1) % c.length = j + 1 := Nat.mod_eq_of_lt hj1
          rw [hmod] at hib
          rw [hib, hieq, Nat.mod_add_mod, Nat.add_assoc]
    have hsub : c ⊆ sample := by
      intro x hx
      obtain ⟨⟨j, hj⟩, rfl⟩ := List.mem_iff_get.mp hx
      rw [← List.getD_eq_get c 0 hj, hstep j hj]
      exact getD_mem_of_lt (Nat.mod_lt _ hnpos) 0
    have hmn : c.length ≤ sample.length :=
      (List.subperm_of_subset hcnd hsub).length_le
    have hm1 : c.length - 1 < c.length := Nat.sub_lt hmpos (by norm_num)
    obtain ⟨i, hi, hia, hib⟩ := mem_ringTxPairs.mp (hce (c.length - 1) hm1)
    have hieq : i = (t + (c.length - 1)) % sample.length := by
      apply sample_index_unique hnd hi (Nat.mod_lt _ hnpos)
      rw [← hia, hstep _ hm1]
    have hwrap : (c.length - 1 + 1) % c.length = 0 := by
      rw [Nat.sub_add_cancel hmpos, Nat.mod_self]
    rw [hwrap] at hib
    have h0 : sample.getD t 0 = sample.getD ((t + c.length) % sample.length) 0 := by
      rw [← ht0, hib, hieq, Nat.mod_add_mod, Nat.add_assoc, Nat.sub_add_cancel hmpos]
    have hteq : t = (t + c.length) % sample.length :=
      sample_index_unique hnd ht (Nat.mod_lt _ hnpos) h0
    have hmod0 : c.length % sample.length = 0 :=
      mod_eq_zero_of_add_mod_left ht hteq.symm
    have hmeqn : c.length = sample.length := by
      have hdvd : sample.length ∣ c.length := Nat.dvd_of_mod_eq_zero hmod0
      exact Nat.le_antisymm hmn (Nat.le_of_dvd hmpos hdvd)
    refine ⟨t, ht, ?_⟩
    apply List.ext_getElem
    · rw [List.length_rotate]; exact hmeqn
    · intro j h1 h2
      rw [List.getElem_rotate]
      have hs := hstep j h1
      rw [List.getD_eq_getElem c 0 h1,
        List.getD_eq_getElem sample 0 (Nat.mod_lt _ hnpos)] at hs
      rw [hs]
      have hidx : (t + j) % sample.length = (j + t) % sample.length := by
        rw [Nat.add_comm]
      simp only [hidx]

/-- Witness for C4 at the concrete member list `[0, 1, 2]`: it is itself a
simple cycle over its ring transaction pairs, and every simple cycle over
them is one of its rotations. -/
theorem ring_edges_unique_simple_cycle_witness :
    isSimpleCycleOf (ringTxPairs [0, 1, 2] 0) [0, 1, 2] ∧
    (∀ c, isSimpleCycleOf (ringTxPairs [0, 1, 2] 0) c →
      ∃ k, k < ([0, 1, 2] : List Nat).length ∧ c = ([0, 1, 2] : List Nat).rotate k) :=
  ring_edges_unique_simple_cycle [0, 1, 2] 0 (by decide) (by decide)
